import Mathlib

/-!
Verification of the newsletter generator and PDF editor backend.

The development shallowly embeds the two Python source files:

* `html_newsletter_generator_v2.py` — the spreadsheet loader (`_load_data`),
  the text cleaner (`_clean_repetitive_text`), the image resolver
  (`_convert_images_to_base64`), the section grouper
  (`_group_events_by_section`) and the page-number map built in
  `generate_html`.
* `pdf_editor_backend.py` — the `PDFEditor` class (add_text, add_image,
  add_rectangle, add_line, rotate_page, delete_page, extract_text).

Strings are modelled as `List Char`; pandas NaN cells are modelled with
`Option`; Python exceptions are modelled with `Except String`.
-/

/-! ## Character classes

`_clean_repetitive_text` splits text with the regex `([.!?]+)\s+` and
normalizes with `str.lower`, `str.split` and `str.strip`.  We model the
ASCII fragment of the whitespace class (which is what `\s`, `split` and
`strip` agree on for ASCII text). -/

/-- The regex class `[.!?]` of `_clean_repetitive_text`. -/
def isPunctC (c : Char) : Bool := c == '.' || c == '!' || c == '?'

/-- ASCII whitespace: the characters matched by `\s` and treated as
whitespace by Python's `str.strip` / `str.split`
(space, tab, newline, carriage return, vertical tab, form feed). -/
def isSpaceC (c : Char) : Bool :=
  c == ' ' || c == '\t' || c == '\n' || c == '\r' || c.toNat == 11 || c.toNat == 12

/-- `str.lower` on an ASCII character (A–Z mapped to a–z). -/
def lowerC (c : Char) : Char :=
  if 65 ≤ c.toNat ∧ c.toNat ≤ 90 then Char.ofNat (c.toNat + 32) else c

/-! ## Python string primitives -/

/-- `str.lstrip()`: drop leading whitespace. -/
def lstrip (l : List Char) : List Char := l.dropWhile isSpaceC

/-- `str.rstrip()`: drop trailing whitespace. -/
def rstrip : List Char → List Char
  | [] => []
  | c :: rest =>
    let r := rstrip rest
    if r = [] ∧ isSpaceC c then [] else c :: r

/-- `str.strip()`: drop whitespace at both ends. -/
def pstrip (l : List Char) : List Char := lstrip (rstrip l)

/-- `str.split()` (no separator): split on whitespace runs, no empty parts.
Implemented as a right fold carrying the word currently being built. -/
def splitWS (l : List Char) : List (List Char) :=
  let f : Char → List Char × List (List Char) → List Char × List (List Char) :=
    fun c acc =>
      if isSpaceC c then ([], if acc.1 = [] then acc.2 else acc.1 :: acc.2)
      else (c :: acc.1, acc.2)
  let r := l.foldr f ([], [])
  if r.1 = [] then r.2 else r.1 :: r.2

/-- `' '.join(parts)`. -/
def joinSpace : List (List Char) → List Char
  | [] => []
  | [e] => e
  | e :: rest => e ++ ' ' :: joinSpace rest

/-! ## The sentence splitter

`re.split(r'([.!?]+)\s+', text)` scans left to right; at each position the
pattern matches iff a maximal nonempty run of `[.!?]` is followed by at
least one whitespace character (backtracking to a shorter punctuation run
never helps, because the character after a shorter run is punctuation, not
whitespace).  With one capture group the result alternates
text, punctuation, text, punctuation, …, text (odd length). -/

/-- Try to match `([.!?]+)\s+` at the head of `l`.  On success return the
captured punctuation run and the remainder after the (greedy) whitespace. -/
def matchPW (l : List Char) : Option (List Char × List Char) :=
  if l.takeWhile isPunctC = [] then none
  else if (l.dropWhile isPunctC).takeWhile isSpaceC = [] then none
  else some (l.takeWhile isPunctC, (l.dropWhile isPunctC).dropWhile isSpaceC)

/-- Prepend a character to the first (current) part of a split result. -/
def consHead (c : Char) : List (List Char) → List (List Char)
  | [] => [[c]]
  | t :: ts => (c :: t) :: ts

/-- The scanning loop of `re.split(r'([.!?]+)\s+', ·)`, with fuel for
structural recursion; `fuel ≥ length` always suffices. -/
def reSplitGo : Nat → List Char → List (List Char)
  | _, [] => [[]]
  | 0, l => [l]
  | fuel + 1, c :: rest =>
    match matchPW (c :: rest) with
    | some (p, r) => [] :: p :: reSplitGo fuel r
    | none => consHead c (reSplitGo fuel rest)

/-- `re.split(r'([.!?]+)\s+', text)`. -/
def reSplit (l : List Char) : List (List Char) := reSplitGo l.length l

/-- The sentence-reconstruction loop of `_clean_repetitive_text`: each
text part with nonempty strip is reattached to its punctuation run; the
final (odd) element is kept if its strip is nonempty.  (`re.split` with a
single capture group always returns an odd-length alternating list, so the
Python loop over index pairs plus the trailing element is exactly this
recursion.) -/
def reconstruct : List (List Char) → List (List Char)
  | [] => []
  | [t] => if pstrip t = [] then [] else [pstrip t]
  | t :: p :: rest =>
    if pstrip t = [] then reconstruct rest
    else pstrip (pstrip t ++ p) :: reconstruct rest

/-- Normalization used for deduplication:
`' '.join(sentence.lower().split())`. -/
def normalizeS (s : List Char) : List Char := joinSpace (splitWS (s.map lowerC))

/-- The dedup loop of `_clean_repetitive_text`: a sentence is kept iff its
normalization is nonempty, unseen, and longer than 5 characters; only kept
sentences enter the seen set. -/
def cleanLoop (seen : List (List Char)) : List (List Char) → List (List Char)
  | [] => []
  | s :: rest =>
    if normalizeS s ≠ [] ∧ normalizeS s ∉ seen ∧ 5 < (normalizeS s).length
    then s :: cleanLoop (normalizeS s :: seen) rest
    else cleanLoop seen rest

/-- `full_sentences` as built from a (stripped) text. -/
def fullSentences (l : List Char) : List (List Char) := reconstruct (reSplit l)

/-- The `cleaned` list of `_clean_repetitive_text`. -/
def cleanedSentences (l : List Char) : List (List Char) :=
  cleanLoop [] (fullSentences l)

/-- `_clean_repetitive_text` on a string input (for a `str` argument,
`pd.isna` is false and truthiness is nonemptiness; note that the final
fallback `return result if result else text` returns the *stripped* text,
since `text` was reassigned to `str(text).strip()`). -/
def cleanText (text : List Char) : List Char :=
  if text = [] then text
  else if pstrip text = [] then pstrip text
  else if joinSpace (cleanedSentences (pstrip text)) = [] then pstrip text
  else joinSpace (cleanedSentences (pstrip text))

/-! ## Predicates used in the idempotence proof

`okText l` says no `[.!?]` character of `l` is immediately followed by a
whitespace character, i.e. `([.!?]+)\s+` matches nowhere inside `l`. -/

/-- No punctuation character immediately followed by whitespace. -/
def okText : List Char → Bool
  | [] => true
  | [_] => true
  | a :: b :: rest => !(isPunctC a && isSpaceC b) && okText (b :: rest)

/-- Shape invariant of every sentence produced by `reconstruct`:
nonempty, stripped at both ends, and without an internal regex match. -/
def sentBase (e : List Char) : Prop :=
  e ≠ [] ∧ okText e = true ∧
    (∀ d, e.head? = some d → isSpaceC d = false) ∧
    (∀ d, e.getLast? = some d → isSpaceC d = false)

/-- Extra invariant of every sentence that is *not* the last one: it splits
as `t ++ p` with `p` a nonempty punctuation run and `t` a nonempty stripped
text whose last character is not punctuation. -/
def sentMid (e : List Char) : Prop :=
  sentBase e ∧
    ∃ t p, e = t ++ p ∧ t ≠ [] ∧ okText t = true ∧
      (∀ d, t.head? = some d → isSpaceC d = false) ∧
      (∀ d, t.getLast? = some d → isSpaceC d = false ∧ isPunctC d = false) ∧
      p ≠ [] ∧ (∀ c ∈ p, isPunctC c = true)

/-- All sentences of a list satisfy `sentBase`, and all but the last also
satisfy `sentMid`. -/
def sentsOk : List (List Char) → Prop
  | [] => True
  | [e] => sentBase e
  | e :: rest => sentMid e ∧ sentsOk rest

/-- Relation between an input string and its `re.split(r'([.!?]+)\s+', ·)`
result: the input decomposes into text/punctuation/whitespace groups, the
text parts contain no match, and the last non-space character of each
non-final text part is not punctuation (otherwise the match would have
started earlier). -/
inductive SplitRel : List Char → List (List Char) → Prop
  | last (t : List Char) : okText t = true → SplitRel t [t]
  | cons (t p sp rest : List Char) (out : List (List Char)) :
      okText t = true →
      (∀ d, (pstrip t).getLast? = some d → isPunctC d = false) →
      p ≠ [] → (∀ c ∈ p, isPunctC c = true) →
      sp ≠ [] → (∀ c ∈ sp, isSpaceC c = true) →
      SplitRel rest out →
      SplitRel (t ++ p ++ sp ++ rest) (t :: p :: out)

/-! ## Newsletter generator: loader, grouper, page map, image resolver -/

/-- A spreadsheet cell of the `Department/Section` column as seen through
`dict.get` on a `to_dict('records')` row: the key can be missing entirely
(column absent from the sheet), present with a NaN value (blank cell), or
present with a string value. -/
inductive Cell where
  | absent
  | na
  | val (s : String)
deriving DecidableEq

/-- A row of the `Department Events` sheet after `to_dict('records')`
(only the fields the grouper and the loader filter use are modelled). -/
structure EventRec where
  title : Option String
  dept : Cell
deriving DecidableEq

/-- `event.get('Department/Section', 'OTHER ACTIVITIES')` followed by the
`pd.notna` test of `_group_events_by_section`: a missing key yields the
default bucket name, a NaN value fails `pd.notna` and yields nothing. -/
def getSection (e : EventRec) : Option String :=
  match e.dept with
  | Cell.absent => some "OTHER ACTIVITIES"
  | Cell.na => none
  | Cell.val s => some s

/-- Insertion-ordered association-list update modelling
`sections[section] = [] … append(event)` on a Python dict. -/
def addToSection (secs : List (String × List EventRec)) (name : String)
    (e : EventRec) : List (String × List EventRec) :=
  match secs with
  | [] => [(name, [e])]
  | (n, es) :: rest =>
    if n = name then (n, es ++ [e]) :: rest else (n, es) :: addToSection rest name e

/-- The loop of `_group_events_by_section`. -/
def groupEventsAux (secs : List (String × List EventRec)) :
    List EventRec → List (String × List EventRec)
  | [] => secs
  | e :: rest =>
    match getSection e with
    | none => groupEventsAux secs rest
    | some s => groupEventsAux (addToSection secs s e) rest

/-- `_group_events_by_section`. -/
def groupEvents (evs : List EventRec) : List (String × List EventRec) :=
  groupEventsAux [] evs

/-- Association-list lookup (Python `dict.__getitem__` / `dict.get`). -/
def lookupStr {β : Type} (l : List (String × β)) (k : String) : Option β :=
  match l with
  | [] => none
  | (a, b) :: rest => if a = k then some b else lookupStr rest k

/-- `sections[name]` with a default empty bucket, used to state membership. -/
def sectionEvents (secs : List (String × List EventRec)) (name : String) :
    List EventRec :=
  (lookupStr secs name).getD []

/-- Python's codepoint-lexicographic string comparison (`<=` on `str`),
written on the underlying character lists so that it evaluates by `decide`. -/
def lexLe : List Char → List Char → Bool
  | [], _ => true
  | _ :: _, [] => false
  | a :: as, b :: bs =>
    if a.toNat < b.toNat then true
    else if b.toNat < a.toNat then false
    else lexLe as bs

/-- `a <= b` on Python strings. -/
def strLe (a b : String) : Bool := lexLe a.toList b.toList

/-- Insert into a sorted list (the elementary step of `sorted`). -/
def insertSorted (s : String) : List String → List String
  | [] => [s]
  | t :: rest => if strLe s t then s :: t :: rest else t :: insertSorted s rest

/-- Python `sorted` on a list of strings (insertion sort; `sorted` is
stable and ascending, and on distinct keys any comparison sort agrees). -/
def sortStrings : List String → List String
  | [] => []
  | s :: rest => insertSorted s (sortStrings rest)

/-- `sorted_sections = sorted(sections.keys())` of `generate_html`. -/
def sortedSections (secs : List (String × List EventRec)) : List String :=
  sortStrings (secs.map Prod.fst)

/-- `{name: 4 + idx for idx, name in enumerate(names)}` generalized over
the starting index (`pageMapFrom 0` is the actual map). -/
def pageMapFrom (k : Nat) : List String → List (String × Nat)
  | [] => []
  | n :: rest => (n, 4 + k) :: pageMapFrom (k + 1) rest

/-- `section_page_map` of `generate_html` (`start_section_page = 4`). -/
def sectionPageMap (ss : List String) : List (String × Nat) := pageMapFrom 0 ss

/-- The section pages emitted by the template: it iterates
`{% for section_name in sorted_sections %}` and renders
`sections[section_name]`, so pages appear in exactly the sorted order. -/
def renderSectionPages (secs : List (String × List EventRec)) :
    List (String × List EventRec) :=
  (sortedSections secs).map (fun n => (n, sectionEvents secs n))

/-! ### Loader (`_load_data`) -/

/-- A `Field`/`Value` row (Newsletter Info, Contact Info). -/
structure KVRow where
  field : Option String
  value : Option String
deriving DecidableEq

/-- An Editorial Board row. -/
structure EdRow where
  role : Option String
  name : Option String
  designation : Option String
deriving DecidableEq

/-- A Vision & Mission row. -/
structure TypeRow where
  typ : Option String
  content : Option String
deriving DecidableEq

/-- A Program Objectives / Program Outcomes row (the `Objective`/`Outcome`
column is aliased to `Description` at load time). -/
structure CodeRow where
  code : Option String
  descr : Option String
deriving DecidableEq

/-- The Excel workbook as `_load_data` observes it: a readability flag
(`pd.ExcelFile` raises on an unreadable file) and one optional table per
sheet name (`none` = the sheet is absent from `sheet_names`). -/
structure Spreadsheet where
  readable : Bool
  newsletterInfo : Option (List KVRow)
  editorialBoard : Option (List EdRow)
  visionMission : Option (List TypeRow)
  programObjectives : Option (List CodeRow)
  programOutcomes : Option (List CodeRow)
  departmentEvents : Option (List EventRec)
  contactInfo : Option (List KVRow)
deriving DecidableEq

/-- The `self.data` dictionary after a successful `_load_data`. -/
structure LoadedData where
  info : List (String × Option String)
  editorial : List EdRow
  visionMission : List TypeRow
  peo : List CodeRow
  pso : List CodeRow
  events : List EventRec
  contact : List (String × Option String)
deriving DecidableEq

/-- Python dict update: replace in place if the key exists, else append. -/
def setKV (l : List (String × Option String)) (k : String) (v : Option String) :
    List (String × Option String) :=
  match l with
  | [] => [(k, v)]
  | (a, b) :: rest => if a = k then (a, v) :: rest else (a, b) :: setKV rest k v

/-- `{row['Field']: row['Value'] for _, row in df.iterrows() if pd.notna(row['Field'])}`. -/
def kvDict (rows : List KVRow) : List (String × Option String) :=
  rows.foldl (fun acc r =>
    match r.field with
    | none => acc
    | some f => setKV acc f r.value) []

/-- `_load_data`: the three unconditionally-read sheets (Newsletter Info,
Editorial Board, Department Events) raise inside the `try` when absent and
surface as one aggregated `Error loading Excel: …`; the other four sheets
are guarded by `in excel_file.sheet_names` and default to empty.  Row
filters: `dropna` on the designated key column of each table. -/
def loadData (s : Spreadsheet) : Except String LoadedData :=
  if s.readable = false then Except.error "Error loading Excel: file unreadable"
  else
    match s.newsletterInfo with
    | none => Except.error "Error loading Excel: missing sheet Newsletter Info"
    | some infoRows =>
      match s.editorialBoard with
      | none => Except.error "Error loading Excel: missing sheet Editorial Board"
      | some edRows =>
        match s.departmentEvents with
        | none => Except.error "Error loading Excel: missing sheet Department Events"
        | some evRows =>
          Except.ok
            { info := kvDict infoRows
              editorial := edRows.filter (fun r => r.role.isSome)
              visionMission := (s.visionMission.getD []).filter (fun r => r.typ.isSome)
              peo := (s.programObjectives.getD []).filter (fun r => r.code.isSome)
              pso := (s.programOutcomes.getD []).filter (fun r => r.code.isSome)
              events := evRows.filter (fun r => r.title.isSome)
              contact := kvDict (s.contactInfo.getD []) }

/-! ### Image resolver (`_convert_images_to_base64`)

The file system is modelled as the list of paths that exist and are
readable; the bytes of an image are abstracted away, so `_encode_image` is
modelled as tagging the path (its output is only ever compared for
presence, never inspected). -/

/-- The fixed header keys and their static asset paths
(`os.path.join('static', 'images', …)` with `/` separators). -/
def headerKeys : List (String × String) :=
  [("college_logo", "static/images/college_logo.png"),
   ("orbits_logo", "static/images/orbits_logo.png"),
   ("naac_badge", "static/images/naac_badge.png"),
   ("vision", "static/images/vision.png")]

/-- `_encode_image`: opening a missing/unreadable file raises and the
`except` returns `None`; otherwise some base64 payload is produced
(resizing and compression do not affect which keys resolve). -/
def encodeImage (fs : List String) (path : String) : Option String :=
  if path ∈ fs then some ("b64_" ++ path) else none

/-- `_convert_images_to_base64`: returns `(embedded_images, image_paths)`.
Header keys whose static file exists go into `image_paths`; caller keys
not already in `image_paths` whose file exists are encoded into
`embedded_images`. -/
def convertImages (fs : List String) (callerPaths : List (String × String)) :
    List (String × String) × List (String × String) :=
  let imagePaths :=
    headerKeys.foldl
      (fun acc kp => if kp.2 ∈ fs then acc ++ [(kp.1, kp.2)] else acc) []
  let embedded :=
    callerPaths.foldl
      (fun acc kp =>
        if (lookupStr imagePaths kp.1).isSome then acc
        else if kp.2 ∈ fs then
          match encodeImage fs kp.2 with
          | some enc => acc ++ [(kp.1, enc)]
          | none => acc
        else acc) []
  (embedded, imagePaths)

/-! ## PDF editor (`pdf_editor_backend.py`)

A page is its base content plus the list of overlays composited onto it;
drawing primitives are recorded symbolically (reportlab canvas rendering
is outside the model).  `PdfReader.pages` is PyPDF2's `_VirtualList`,
whose `__getitem__` implements standard Python sequence indexing: a
negative index is offset by the length, and anything outside `[0, len)`
raises `IndexError`.  `PdfWriter.add_page` clones the page, so pages
already in the writer are unaffected by later mutation of reader pages. -/

/-- A drawing primitive overlaid on a page, or a rotation applied to it. -/
inductive OvElem where
  | otext (t : String) (x y : Int) (fontSize : Nat) (color fontName : String)
  | oimage (path : String) (x y w h : Int)
  | orect (x y w h : Int) (fill stroke : String) (strokeWidth : Int)
  | oline (x1 y1 x2 y2 : Int) (color : String) (width : Int)
  | orot (angle : Int)
deriving DecidableEq

/-- A PDF page: original content plus accumulated edits. -/
structure PDFPage where
  base : String
  over : List OvElem
deriving DecidableEq

/-- Default page used only for list access already guarded by a bounds
check (never actually read out of range). -/
def blankPage : PDFPage := { base := "", over := [] }

/-- The `PDFEditor` object: the reader's (mutable) pages, the writer's
accumulated pages, and the page count snapshot taken in `__init__`. -/
structure PDFEditor where
  reader : List PDFPage
  writer : List PDFPage
  numPages : Nat
deriving DecidableEq

/-- `PDFEditor(pdf_path)`: fresh writer, page count snapshot. -/
def PDFEditor.init (pages : List PDFPage) : PDFEditor :=
  { reader := pages, writer := [], numPages := pages.length }

/-- Python sequence index resolution (PyPDF2 `_VirtualList.__getitem__`):
negative indices count from the end; out of `[0, len)` is an error. -/
def pyIndex (len : Nat) (i : Int) : Option Nat :=
  let j := if i < 0 then i + len else i
  if 0 ≤ j ∧ j < len then some j.toNat else none

/-- Common body of the four drawing operations: resolve the page, merge
the overlay onto it (mutating the reader's page), and append the merged
page to the writer. -/
def addOverlay (e : PDFEditor) (pageNum : Int) (el : OvElem) :
    Except String PDFEditor :=
  match pyIndex e.reader.length pageNum with
  | none => Except.error "IndexError: sequence index out of range"
  | some n =>
    let p := e.reader.getD n blankPage
    let p' := { p with over := p.over ++ [el] }
    Except.ok { e with reader := e.reader.set n p', writer := e.writer ++ [p'] }

/-- `add_text(page_num, text, x, y, font_size, color, font_name)`. -/
def add_text (e : PDFEditor) (pageNum : Int) (text : String) (x y : Int)
    (fontSize : Nat) (color fontName : String) : Except String PDFEditor :=
  addOverlay e pageNum (OvElem.otext text x y fontSize color fontName)

/-- `add_image(page_num, image_path, x, y, width, height)`. -/
def add_image (e : PDFEditor) (pageNum : Int) (path : String) (x y w h : Int) :
    Except String PDFEditor :=
  addOverlay e pageNum (OvElem.oimage path x y w h)

/-- `add_rectangle(page_num, x, y, width, height, fill_color, stroke_color, stroke_width)`. -/
def add_rectangle (e : PDFEditor) (pageNum : Int) (x y w h : Int)
    (fill stroke : String) (strokeWidth : Int) : Except String PDFEditor :=
  addOverlay e pageNum (OvElem.orect x y w h fill stroke strokeWidth)

/-- `add_line(page_num, x1, y1, x2, y2, color, width)`. -/
def add_line (e : PDFEditor) (pageNum : Int) (x1 y1 x2 y2 : Int)
    (color : String) (width : Int) : Except String PDFEditor :=
  addOverlay e pageNum (OvElem.oline x1 y1 x2 y2 color width)

/-- `rotate_page(page_num, angle)`: index the page first (IndexError
wins), then `PageObject.rotate` insists on a multiple of 90. -/
def rotate_page (e : PDFEditor) (pageNum : Int) (angle : Int) :
    Except String PDFEditor :=
  match pyIndex e.reader.length pageNum with
  | none => Except.error "IndexError: sequence index out of range"
  | some n =>
    if angle % 90 ≠ 0 then
      Except.error "ValueError: Rotation angle must be a multiple of 90"
    else
      let p := e.reader.getD n blankPage
      let p' := { p with over := p.over ++ [OvElem.orot angle] }
      Except.ok { e with reader := e.reader.set n p', writer := e.writer ++ [p'] }

/-- `delete_page(page_num)`: rebuilds the writer by appending every reader
page whose position differs from `page_num`; it never raises, whatever the
index. -/
def delete_page (e : PDFEditor) (pageNum : Int) : PDFEditor :=
  { e with
    writer := e.writer ++
      ((List.range e.numPages).filter (fun (i : Nat) => decide ((i : Int) ≠ pageNum))).map
        (fun (i : Nat) => e.reader.getD i blankPage) }

/-- `extract_text(page_num)`: resolve the page and return its (abstracted)
content. -/
def extract_text (e : PDFEditor) (pageNum : Int) : Except String PDFPage :=
  match pyIndex e.reader.length pageNum with
  | none => Except.error "IndexError: sequence index out of range"
  | some n => Except.ok (e.reader.getD n blankPage)

/-! ## Basic lemmas about the character classes and `strip` -/

lemma getLast?_mem' {α : Type} : ∀ {l : List α} {d : α}, l.getLast? = some d → d ∈ l := by
  intro l
  induction l with
  | nil => intro d h; simp at h
  | cons c rest ih =>
    intro d h
    rcases rest with _ | ⟨x, xs⟩
    · simp only [List.getLast?_singleton, Option.some_inj] at h
      subst h; exact List.mem_singleton_self _
    · rw [List.getLast?_cons_cons] at h
      exact List.mem_cons_of_mem _ (ih h)

lemma not_space_of_punct {c : Char} (h : isPunctC c = true) : isSpaceC c = false := by
  simp only [isPunctC, Bool.or_eq_true, beq_iff_eq] at h
  rcases h with (rfl | rfl) | rfl <;> decide

lemma not_punct_of_space {c : Char} (h : isSpaceC c = true) : isPunctC c = false := by
  rcases hp : isPunctC c with _ | _
  · rfl
  · rw [not_space_of_punct hp] at h
    exact h.symm

lemma rstrip_cons (c : Char) (rest : List Char) :
    rstrip (c :: rest) =
      if rstrip rest = [] ∧ isSpaceC c = true then [] else c :: rstrip rest := rfl

lemma rstrip_getLast?_not_space :
    ∀ l : List Char, ∀ d, (rstrip l).getLast? = some d → isSpaceC d = false := by
  intro l
  induction l with
  | nil => intro d h; simp [rstrip] at h
  | cons c rest ih =>
    intro d h
    rw [rstrip_cons] at h
    split at h
    · simp at h
    · rename_i hcond
      rcases hr : rstrip rest with _ | ⟨x, xs⟩
      · rw [hr] at h hcond
        simp only [List.getLast?_singleton, Option.some_inj] at h
        subst h
        rcases hs : isSpaceC c with _ | _
        · rfl
        · exact absurd ⟨rfl, hs⟩ hcond
      · rw [hr] at h
        rw [List.getLast?_cons_cons] at h
        exact ih d (by rw [hr]; exact h)

lemma rstrip_eq_self :
    ∀ l : List Char, (∀ d, l.getLast? = some d → isSpaceC d = false) → rstrip l = l := by
  intro l
  induction l with
  | nil => intro _; rfl
  | cons c rest ih =>
    intro h
    rw [rstrip_cons]
    rcases rest with _ | ⟨x, xs⟩
    · have hc := h c (by simp)
      simp [hc, rstrip]
    · have hr : rstrip (x :: xs) = x :: xs :=
        ih (fun d hd => h d (by rw [List.getLast?_cons_cons]; exact hd))
      rw [hr]
      simp

lemma rstrip_isPrefixOf : ∀ l : List Char, (rstrip l).IsPrefix l := by
  intro l
  induction l with
  | nil => exact List.prefix_refl _
  | cons c rest ih =>
    rw [rstrip_cons]
    split
    · exact List.nil_prefix
    · exact List.cons_prefix_cons.mpr ⟨rfl, ih⟩

lemma rstrip_eq_nil :
    ∀ l : List Char, rstrip l = [] → ∀ c ∈ l, isSpaceC c = true := by
  intro l
  induction l with
  | nil => intro _ c hc; simp at hc
  | cons c rest ih =>
    intro h d hd
    rw [rstrip_cons] at h
    split at h
    · rename_i hcond
      rcases List.mem_cons.mp hd with rfl | hd
      · exact hcond.2
      · exact ih hcond.1 d hd
    · simp at h

lemma lstrip_head?_not_space :
    ∀ l : List Char, ∀ d, (lstrip l).head? = some d → isSpaceC d = false := by
  intro l
  induction l with
  | nil => intro d h; simp [lstrip] at h
  | cons c rest ih =>
    intro d h
    simp only [lstrip, List.dropWhile] at h
    rcases hs : isSpaceC c with _ | _
    · rw [hs] at h
      simp only [List.head?_cons, Option.some_inj] at h
      subst h; exact hs
    · rw [hs] at h
      exact ih d h

lemma lstrip_eq_self :
    ∀ l : List Char, (∀ d, l.head? = some d → isSpaceC d = false) → lstrip l = l := by
  intro l h
  rcases l with _ | ⟨c, rest⟩
  · rfl
  · have := h c (by simp)
    simp [lstrip, List.dropWhile, this]

lemma lstrip_suffix : ∀ l : List Char, (lstrip l).IsSuffix l := by
  intro l
  induction l with
  | nil => exact List.suffix_refl _
  | cons c rest ih =>
    simp only [lstrip, List.dropWhile]
    split
    · exact ih.trans (List.suffix_cons c rest)
    · exact List.suffix_refl _

lemma lstrip_getLast? {l : List Char} (h : lstrip l ≠ []) :
    (lstrip l).getLast? = l.getLast? := by
  obtain ⟨a, ha⟩ := lstrip_suffix l
  conv_rhs => rw [← ha]
  rw [List.getLast?_append]
  rcases hg : (lstrip l).getLast? with _ | d
  · exact absurd (List.getLast?_eq_none_iff.mp hg) h
  · rfl

lemma lstrip_eq_nil {l : List Char} (h : lstrip l = []) : ∀ c ∈ l, isSpaceC c = true :=
  List.dropWhile_eq_nil_iff.mp h

lemma pstrip_head?_not_space (l : List Char) :
    ∀ d, (pstrip l).head? = some d → isSpaceC d = false :=
  lstrip_head?_not_space (rstrip l)

lemma pstrip_eq_nil_of_rstrip {l : List Char} (h : pstrip l = []) : rstrip l = [] := by
  have h' : lstrip (rstrip l) = [] := h
  rcases hr : rstrip l with _ | ⟨x, xs⟩
  · rfl
  · exfalso
    rw [hr] at h'
    have hall := lstrip_eq_nil h'
    rcases hg : (x :: xs).getLast? with _ | d
    · simp at hg
    · have hd : d ∈ x :: xs := getLast?_mem' hg
      have hsp := hall d hd
      have hns := rstrip_getLast?_not_space l d (by rw [hr]; exact hg)
      rw [hsp] at hns; exact Bool.true_eq_false.mp hns

lemma pstrip_getLast?_not_space (l : List Char) :
    ∀ d, (pstrip l).getLast? = some d → isSpaceC d = false := by
  intro d h
  rcases hp : pstrip l with _ | ⟨x, xs⟩
  · rw [hp] at h; simp at h
  · have hne : lstrip (rstrip l) ≠ [] := by
      show pstrip l ≠ []
      rw [hp]; simp
    have heq := lstrip_getLast? hne
    rw [show lstrip (rstrip l) = pstrip l from rfl] at heq
    exact rstrip_getLast?_not_space l d (by rw [← heq]; exact h)

lemma pstrip_eq_self {l : List Char}
    (hh : ∀ d, l.head? = some d → isSpaceC d = false)
    (hg : ∀ d, l.getLast? = some d → isSpaceC d = false) : pstrip l = l := by
  unfold pstrip
  rw [rstrip_eq_self l hg]
  exact lstrip_eq_self l hh

lemma pstrip_idem (l : List Char) : pstrip (pstrip l) = pstrip l := by
  rcases hp : pstrip l with _ | ⟨x, xs⟩
  · rfl
  · rw [← hp]
    exact pstrip_eq_self (pstrip_head?_not_space l) (pstrip_getLast?_not_space l)

lemma pstrip_eq_nil_all_space {l : List Char} (h : pstrip l = []) :
    ∀ c ∈ l, isSpaceC c = true :=
  rstrip_eq_nil l (pstrip_eq_nil_of_rstrip h)

lemma pstrip_cons_getLast? {c : Char} {t : List Char} (h : pstrip t ≠ []) :
    (pstrip (c :: t)).getLast? = (pstrip t).getLast? := by
  have hrt : rstrip t ≠ [] := by
    intro hx
    apply h
    show lstrip (rstrip t) = []
    rw [hx]; rfl
  have hrc : rstrip (c :: t) = c :: rstrip t := by
    rw [rstrip_cons]
    split
    · rename_i hcond; exact absurd hcond.1 hrt
    · rfl
  show (lstrip (rstrip (c :: t))).getLast? = (pstrip t).getLast?
  rw [hrc]
  rcases hs : isSpaceC c with _ | _
  · have hl : lstrip (c :: rstrip t) = c :: rstrip t := by
      simp [lstrip, List.dropWhile, hs]
    rw [hl]
    have h1 : (c :: rstrip t).getLast? = (rstrip t).getLast? := by
      rcases hr : rstrip t with _ | ⟨y, ys⟩
      · exact absurd hr hrt
      · exact List.getLast?_cons_cons
    rw [h1]
    exact (lstrip_getLast? (l := rstrip t) (by show pstrip t ≠ []; exact h)).symm
  · have hl : lstrip (c :: rstrip t) = lstrip (rstrip t) := by
      simp [lstrip, List.dropWhile, hs]
    rw [hl]
    rfl

/-! ## Lemmas about `okText` -/

lemma okText_cons_cons {a b : Char} {r : List Char} :
    okText (a :: b :: r) = true ↔
      (isPunctC a && isSpaceC b) = false ∧ okText (b :: r) = true := by
  show (!(isPunctC a && isSpaceC b) && okText (b :: r)) = true ↔ _
  rw [Bool.and_eq_true, Bool.not_eq_true']

lemma okText_tail {a : Char} {l : List Char} (h : okText (a :: l) = true) :
    okText l = true := by
  rcases l with _ | ⟨b, r⟩
  · rfl
  · exact (okText_cons_cons.mp h).2

lemma okText_append_left :
    ∀ x y : List Char, okText (x ++ y) = true → okText x = true := by
  intro x
  induction x with
  | nil => intro _ _; rfl
  | cons a x' ih =>
    intro y h
    rcases x' with _ | ⟨b, x''⟩
    · rfl
    · rw [List.cons_append, List.cons_append] at h
      have h1 := okText_cons_cons.mp h
      rw [← List.cons_append] at h1
      exact okText_cons_cons.mpr ⟨h1.1, ih y h1.2⟩

lemma okText_append_right :
    ∀ x y : List Char, okText (x ++ y) = true → okText y = true := by
  intro x
  induction x with
  | nil => intro y h; exact h
  | cons a x' ih =>
    intro y h
    rw [List.cons_append] at h
    exact ih y (okText_tail h)

lemma okText_pstrip {l : List Char} (h : okText l = true) : okText (pstrip l) = true := by
  obtain ⟨a, ha⟩ := rstrip_isPrefixOf l
  have h1 : okText (rstrip l) = true := okText_append_left _ _ (ha ▸ h)
  obtain ⟨b, hb⟩ := lstrip_suffix (rstrip l)
  exact okText_append_right b _ (hb ▸ h1)

lemma okText_append {x p : List Char}
    (hx : okText x = true) (hp : okText p = true)
    (hj : ∀ a b, x.getLast? = some a → p.head? = some b →
      (isPunctC a && isSpaceC b) = false) :
    okText (x ++ p) = true := by
  induction x with
  | nil => exact hp
  | cons a x' ih =>
    rcases x' with _ | ⟨b, x''⟩
    · rcases p with _ | ⟨c, p'⟩
      · exact hx
      · rw [List.singleton_append]
        exact okText_cons_cons.mpr ⟨hj a c (by simp) (by simp), hp⟩
    · rw [List.cons_append, List.cons_append]
      have h1 := okText_cons_cons.mp hx
      refine okText_cons_cons.mpr ⟨h1.1, ?_⟩
      rw [← List.cons_append]
      exact ih h1.2 (fun a' b' ha' hb' => hj a' b' (by rw [List.getLast?_cons_cons]; exact ha') hb')

lemma okText_all_punct {p : List Char} (hp : ∀ c ∈ p, isPunctC c = true) :
    okText p = true := by
  induction p with
  | nil => rfl
  | cons a p' ih =>
    rcases p' with _ | ⟨b, p''⟩
    · rfl
    · refine okText_cons_cons.mpr ⟨?_, ih (fun c hc => hp c (List.mem_cons_of_mem _ hc))⟩
      have hb := hp b (by simp)
      rw [not_space_of_punct hb, Bool.and_false]

/-- If a nonempty punctuation run starts `u` and `u` satisfies `okText`,
the first character after the run is not whitespace. -/
lemma space_after_punct_run :
    ∀ u : List Char, okText u = true → u.takeWhile isPunctC ≠ [] →
      ∀ d, (u.dropWhile isPunctC).head? = some d → isSpaceC d = false := by
  intro u
  induction u with
  | nil => intro _ h; simp [List.takeWhile] at h
  | cons a u' ih =>
    intro hok hne d hd
    rcases hpa : isPunctC a with _ | _
    · simp [List.takeWhile, hpa] at hne
    · rw [List.dropWhile_cons_of_pos (by rw [hpa])] at hd
      rcases u' with _ | ⟨b, u''⟩
      · simp at hd
      · rcases hpb : isPunctC b with _ | _
        · rw [List.dropWhile_cons_of_neg (by rw [hpb]; simp)] at hd
          simp only [List.head?_cons, Option.some_inj] at hd
          subst hd
          have := (okText_cons_cons.mp hok).1
          rw [hpa, Bool.true_and] at this
          exact this
        · exact ih (okText_tail hok)
            (by rw [List.takeWhile_cons_of_pos (by rw [hpb])]; simp) d hd

/-! ## Lemmas about `matchPW` -/

lemma dropWhile_head?_not {α : Type} (p : α → Bool) :
    ∀ l : List α, ∀ d, (l.dropWhile p).head? = some d → p d = false := by
  intro l
  induction l with
  | nil => intro d h; simp [List.dropWhile] at h
  | cons a rest ih =>
    intro d h
    rcases hp : p a with _ | _
    · rw [List.dropWhile_cons_of_neg (by rw [hp]; simp)] at h
      simp only [List.head?_cons, Option.some_inj] at h
      subst h; exact hp
    · rw [List.dropWhile_cons_of_pos (by rw [hp])] at h
      exact ih d h

lemma takeWhile_append_all {α : Type} (p : α → Bool) :
    ∀ q y : List α, (∀ c ∈ q, p c = true) →
      (q ++ y).takeWhile p = q ++ y.takeWhile p := by
  intro q
  induction q with
  | nil => intro y _; rfl
  | cons a q' ih =>
    intro y hall
    rw [List.cons_append,
      List.takeWhile_cons_of_pos (hall a (by simp)), List.cons_append,
      ih y (fun c hc => hall c (List.mem_cons_of_mem _ hc))]

lemma dropWhile_append_all {α : Type} (p : α → Bool) :
    ∀ q y : List α, (∀ c ∈ q, p c = true) →
      (q ++ y).dropWhile p = y.dropWhile p := by
  intro q
  induction q with
  | nil => intro y _; rfl
  | cons a q' ih =>
    intro y hall
    rw [List.cons_append, List.dropWhile_cons_of_pos (hall a (by simp))]
    exact ih y (fun c hc => hall c (List.mem_cons_of_mem _ hc))

lemma matchPW_length :
    ∀ l p r, matchPW l = some (p, r) → r.length < l.length := by
  intro l p r h
  unfold matchPW at h
  split at h
  · simp at h
  · rename_i hp
    split at h
    · simp at h
    · rename_i hs
      simp only [Option.some_inj, Prod.mk.injEq] at h
      obtain ⟨hp', hr⟩ := h
      have e1 : l.takeWhile isPunctC ++ l.dropWhile isPunctC = l :=
        List.takeWhile_append_dropWhile _ _
      have e2 : (l.dropWhile isPunctC).takeWhile isSpaceC ++
          (l.dropWhile isPunctC).dropWhile isSpaceC = l.dropWhile isPunctC :=
        List.takeWhile_append_dropWhile _ _
      have l1 : (l.dropWhile isPunctC).length < l.length := by
        conv_rhs => rw [← e1]
        rw [List.length_append]
        have : 0 < (l.takeWhile isPunctC).length := List.length_pos.mpr hp
        omega
      have l2 : r.length < (l.dropWhile isPunctC).length := by
        conv_rhs => rw [← e2]
        rw [List.length_append]
        have h0 : 0 < ((l.dropWhile isPunctC).takeWhile isSpaceC).length :=
          List.length_pos.mpr hs
        rw [← hr]
        omega
      omega

lemma matchPW_some_spec :
    ∀ l p r, matchPW l = some (p, r) →
      ∃ sp, l = p ++ sp ++ r ∧ p ≠ [] ∧ (∀ c ∈ p, isPunctC c = true) ∧
        sp ≠ [] ∧ (∀ c ∈ sp, isSpaceC c = true) ∧
        (∀ d, r.head? = some d → isSpaceC d = false) := by
  intro l p r h
  unfold matchPW at h
  split at h
  · simp at h
  · rename_i hp
    split at h
    · simp at h
    · rename_i hs
      simp only [Option.some_inj, Prod.mk.injEq] at h
      obtain ⟨hp', hr⟩ := h
      refine ⟨(l.dropWhile isPunctC).takeWhile isSpaceC, ?_, ?_, ?_, hs, ?_, ?_⟩
      · rw [← hp', ← hr, List.append_assoc, List.takeWhile_append_dropWhile,
          List.takeWhile_append_dropWhile]
      · rw [← hp']; exact hp
      · intro c hc; rw [← hp'] at hc; exact List.mem_takeWhile_imp hc
      · intro c hc; exact List.mem_takeWhile_imp hc
      · intro d hd; rw [← hr] at hd; exact dropWhile_head?_not isSpaceC _ d hd

lemma matchPW_some_of {l q : List Char} {s : Char} {z : List Char}
    (hl : l = q ++ s :: z) (hq : q ≠ []) (hqa : ∀ c ∈ q, isPunctC c = true)
    (hs : isSpaceC s = true) : matchPW l ≠ none := by
  subst hl
  unfold matchPW
  have ht : (q ++ s :: z).takeWhile isPunctC = q := by
    rw [takeWhile_append_all isPunctC q _ hqa,
      List.takeWhile_cons_of_neg (by rw [not_punct_of_space hs]; simp),
      List.append_nil]
  have hd : (q ++ s :: z).dropWhile isPunctC = s :: z := by
    rw [dropWhile_append_all isPunctC q _ hqa,
      List.dropWhile_cons_of_neg (by rw [not_punct_of_space hs]; simp)]
  rw [ht, hd]
  simp only [if_neg hq]
  rw [List.takeWhile_cons_of_pos hs]
  simp

lemma matchPW_exact {p : List Char} {rest : List Char}
    (hp : p ≠ []) (hpa : ∀ c ∈ p, isPunctC c = true)
    (hrest : ∀ d, rest.head? = some d → isSpaceC d = false) :
    matchPW (p ++ ' ' :: rest) = some (p, rest) := by
  unfold matchPW
  have ht : (p ++ ' ' :: rest).takeWhile isPunctC = p := by
    rw [takeWhile_append_all isPunctC p _ hpa,
      List.takeWhile_cons_of_neg (by decide), List.append_nil]
  have hd : (p ++ ' ' :: rest).dropWhile isPunctC = ' ' :: rest := by
    rw [dropWhile_append_all isPunctC p _ hpa,
      List.dropWhile_cons_of_neg (by decide)]
  rw [ht, hd]
  simp only [if_neg hp]
  have hts : (' ' :: rest).takeWhile isSpaceC = ' ' :: rest.takeWhile isSpaceC := by
    rw [List.takeWhile_cons_of_pos (by decide)]
  have htr : rest.takeWhile isSpaceC = [] := by
    rcases rest with _ | ⟨d, rest'⟩
    · rfl
    · rw [List.takeWhile_cons_of_neg (by rw [hrest d (by simp)]; simp)]
  have hds : (' ' :: rest).dropWhile isSpaceC = rest := by
    rw [List.dropWhile_cons_of_pos (by decide)]
    rcases rest with _ | ⟨d, rest'⟩
    · rfl
    · rw [List.dropWhile_cons_of_neg (by rw [hrest d (by simp)]; simp)]
  rw [hts, htr, hds]
  simp

lemma matchPW_none_mid {u z : List Char}
    (hu : u ≠ []) (hok : okText u = true)
    (hlast : ∀ d, u.getLast? = some d → isPunctC d = false) :
    matchPW (u ++ z) = none := by
  unfold matchPW
  rcases hq : u.takeWhile isPunctC with _ | ⟨a, q'⟩
  · -- the head of u is not punctuation, so no match can start here
    rcases u with _ | ⟨c, u'⟩
    · exact absurd rfl hu
    · have hc : isPunctC c = false := by
        by_contra hcc
        rw [List.takeWhile_cons_of_pos (by revert hcc; cases isPunctC c <;> simp)] at hq
        simp at hq
      rw [List.cons_append, List.takeWhile_cons_of_neg (by rw [hc]; simp)]
      simp
  · -- the punctuation run stays inside u and is followed by a non-space
    have hqu : u.takeWhile isPunctC ≠ [] := by rw [hq]; simp
    have hdu : u.dropWhile isPunctC ≠ [] := by
      intro hnil
      have hall : ∀ c ∈ u, isPunctC c = true := by
        intro c hc
        have : u.takeWhile isPunctC = u := by
          have := List.takeWhile_append_dropWhile (p := isPunctC) (l := u)
          rw [hnil, List.append_nil] at this
          exact this
        rw [← this] at hc
        exact List.mem_takeWhile_imp hc
      rcases hg : u.getLast? with _ | d
      · exact hu (List.getLast?_eq_none_iff.mp hg)
      · have := hlast d hg
        rw [hall d (getLast?_mem' hg)] at this
        exact Bool.true_eq_false.mp this
    obtain ⟨d, w, hdw⟩ : ∃ d w, u.dropWhile isPunctC = d :: w := by
      rcases hx : u.dropWhile isPunctC with _ | ⟨d, w⟩
      · exact absurd hx hdu
      · exact ⟨d, w, rfl⟩
    have hdnp : isPunctC d = false := dropWhile_head?_not isPunctC u d (by rw [hdw]; simp)
    have hdns : isSpaceC d = false :=
      space_after_punct_run u hok hqu d (by rw [hdw]; simp)
    have hu' : u = u.takeWhile isPunctC ++ d :: w := by
      conv_lhs => rw [← List.takeWhile_append_dropWhile (p := isPunctC) (l := u)]
      rw [hdw]
    have ht : (u ++ z).takeWhile isPunctC = u.takeWhile isPunctC := by
      conv_lhs => rw [hu']
      rw [List.append_assoc,
        takeWhile_append_all isPunctC _ _ (fun c hc => List.mem_takeWhile_imp hc),
        List.cons_append, List.takeWhile_cons_of_neg (by rw [hdnp]; simp),
        List.append_nil]
    have hd2 : (u ++ z).dropWhile isPunctC = d :: (w ++ z) := by
      conv_lhs => rw [hu']
      rw [List.append_assoc,
        dropWhile_append_all isPunctC _ _ (fun c hc => List.mem_takeWhile_imp hc),
        List.cons_append, List.dropWhile_cons_of_neg (by rw [hdnp]; simp)]
    rw [ht, hd2]
    simp only [if_neg hqu]
    rw [List.takeWhile_cons_of_neg (by rw [hdns]; simp)]
    simp

lemma matchPW_none_of_okText {l : List Char} (hok : okText l = true) :
    matchPW l = none := by
  rcases hm : matchPW l with _ | ⟨p, r⟩
  · rfl
  · exfalso
    unfold matchPW at hm
    split at hm
    · simp at hm
    · rename_i htne
      split at hm
      · simp at hm
      · rename_i hsne
        obtain ⟨d, w, hdw⟩ : ∃ d w, l.dropWhile isPunctC = d :: w := by
          rcases hx : l.dropWhile isPunctC with _ | ⟨d, w⟩
          · rw [hx] at hsne; simp at hsne
          · exact ⟨d, w, rfl⟩
        have hds : isSpaceC d = true := by
          rcases hsd : isSpaceC d with _ | _
          · rw [hdw, List.takeWhile_cons_of_neg (by rw [hsd]; simp)] at hsne
            simp at hsne
          · rfl
        have := space_after_punct_run l hok htne d (by rw [hdw]; simp)
        rw [hds] at this
        exact Bool.true_eq_false.mp this

lemma pstrip_nil_of_all_space :
    ∀ l : List Char, (∀ c ∈ l, isSpaceC c = true) → pstrip l = [] := by
  intro l h
  have hr : rstrip l = [] := by
    induction l with
    | nil => rfl
    | cons c rest ih =>
      rw [rstrip_cons, if_pos]
      exact ⟨ih (fun d hd => h d (List.mem_cons_of_mem _ hd)), h c (by simp)⟩
  show lstrip (rstrip l) = []
  rw [hr]; rfl

lemma head_pair_ok {c b : Char} {w : List Char}
    (hm : matchPW (c :: b :: w) = none) : (isPunctC c && isSpaceC b) = false := by
  by_contra hb
  have hb' : (isPunctC c && isSpaceC b) = true := by
    revert hb; cases (isPunctC c && isSpaceC b) <;> simp
  rw [Bool.and_eq_true] at hb'
  refine matchPW_some_of (l := c :: b :: w) (q := [c]) (z := w) rfl (by simp) ?_ hb'.2 hm
  intro x hx
  rw [List.mem_singleton.mp hx]
  exact hb'.1

/-- `reSplitGo` computes a decomposition satisfying `SplitRel`. -/
lemma reSplitGo_rel : ∀ fuel l, l.length ≤ fuel → SplitRel l (reSplitGo fuel l) := by
  intro fuel
  induction fuel with
  | zero =>
    intro l hl
    have hnil : l = [] := by
      rcases l with _ | ⟨c, rest⟩
      · rfl
      · simp at hl
    subst hnil
    exact SplitRel.last [] rfl
  | succ f ih =>
    intro l hl
    rcases l with _ | ⟨c, rest⟩
    · exact SplitRel.last [] rfl
    · rcases hm : matchPW (c :: rest) with _ | ⟨p, r⟩
      · have hout : reSplitGo (f + 1) (c :: rest) = consHead c (reSplitGo f rest) := by
          simp only [reSplitGo, hm]
        rw [hout]
        have hrest : rest.length ≤ f := by
          simp only [List.length_cons] at hl; omega
        have hrel := ih rest hrest
        revert hrel
        generalize reSplitGo f rest = out
        intro hrel
        cases hrel with
        | last t hok =>
          show SplitRel (c :: rest) [c :: rest]
          refine SplitRel.last _ ?_
          rcases rest with _ | ⟨b, t'⟩
          · rfl
          · exact okText_cons_cons.mpr ⟨head_pair_ok hm, hok⟩
        | cons t p sp rest' out' h1 h2 h3 h4 h5 h6 h7 =>
          show SplitRel (c :: (t ++ p ++ sp ++ rest')) (consHead c (t :: p :: out'))
          show SplitRel (c :: (t ++ p ++ sp ++ rest')) ((c :: t) :: p :: out')
          have hshape : c :: (t ++ p ++ sp ++ rest') = (c :: t) ++ p ++ sp ++ rest' := by
            simp
          rw [hshape]
          obtain ⟨s0, sp', hsp⟩ : ∃ s0 sp', sp = s0 :: sp' := by
            rcases sp with _ | ⟨s0, sp'⟩
            · exact absurd rfl h5
            · exact ⟨s0, sp', rfl⟩
          refine SplitRel.cons (c :: t) p sp rest' out' ?_ ?_ h3 h4 h5 h6 h7
          · -- okText (c :: t)
            rcases t with _ | ⟨b, t'⟩
            · rfl
            · have hm' : matchPW (c :: b :: (t' ++ p ++ sp ++ rest')) = none := by
                have : (b :: t') ++ p ++ sp ++ rest' = b :: (t' ++ p ++ sp ++ rest') := by
                  simp
                rw [this] at hm
                exact hm
              exact okText_cons_cons.mpr ⟨head_pair_ok hm', h1⟩
          · -- last character of pstrip (c :: t) is not punctuation
            by_cases hpt : pstrip t = []
            · by_cases hsc : isSpaceC c = true
              · have hall : ∀ x ∈ c :: t, isSpaceC x = true := by
                  intro x hx
                  rcases List.mem_cons.mp hx with rfl | hx
                  · exact hsc
                  · exact pstrip_eq_nil_all_space hpt x hx
                rw [pstrip_nil_of_all_space _ hall]
                intro d hd
                simp at hd
              · have hrt : rstrip t = [] := pstrip_eq_nil_of_rstrip hpt
                have hpc : pstrip (c :: t) = [c] := by
                  show lstrip (rstrip (c :: t)) = [c]
                  rw [rstrip_cons, if_neg (by rw [hrt]; simp [hsc]), hrt]
                  simp [lstrip, List.dropWhile, hsc]
                rw [hpc]
                intro d hd
                simp only [List.getLast?_singleton, Option.some_inj] at hd
                subst hd
                by_contra hdp
                have hdp' : isPunctC c = true := by
                  revert hdp; cases isPunctC c <;> simp
                rcases t with _ | ⟨b, t'⟩
                · -- c :: rest = (c :: p) ++ s0 :: (sp' ++ rest')
                  refine matchPW_some_of (l := c :: ([] ++ p ++ sp ++ rest'))
                    (q := c :: p) (s := s0) (z := sp' ++ rest') ?_ (by simp) ?_ ?_ hm
                  · rw [hsp]; simp
                  · intro x hx
                    rcases List.mem_cons.mp hx with rfl | hx
                    · exact hdp'
                    · exact h4 x hx
                  · exact h6 s0 (by rw [hsp]; simp)
                · -- t starts with a space: match at the head directly
                  have hsb : isSpaceC b = true :=
                    pstrip_eq_nil_all_space hpt b (by simp)
                  refine matchPW_some_of (l := c :: ((b :: t') ++ p ++ sp ++ rest'))
                    (q := [c]) (s := b) (z := t' ++ p ++ sp ++ rest') ?_ (by simp) ?_ hsb hm
                  · simp
                  · intro x hx
                    rw [List.mem_singleton.mp hx]
                    exact hdp'
            · rw [pstrip_cons_getLast? hpt]
              exact h2
      · have hout : reSplitGo (f + 1) (c :: rest) = [] :: p :: reSplitGo f r := by
          simp only [reSplitGo, hm]
        rw [hout]
        obtain ⟨sp, hleq, hp, hpa, hsp, hspa, hrh⟩ := matchPW_some_spec _ _ _ hm
        have hr : r.length ≤ f := by
          have := matchPW_length _ _ _ hm
          simp only [List.length_cons] at this hl
          omega
        have hrel := ih r hr
        have := SplitRel.cons [] p sp r (reSplitGo f r) rfl
          (by intro d hd; simp [pstrip, lstrip, rstrip] at hd) hp hpa hsp hspa hrel
        rw [hleq]
        simpa using this

/-- A string without any internal match is returned as a single part. -/
lemma reSplitGo_okText :
    ∀ fuel l, l.length ≤ fuel → okText l = true → reSplitGo fuel l = [l] := by
  intro fuel
  induction fuel with
  | zero =>
    intro l hl _
    rcases l with _ | ⟨c, rest⟩
    · rfl
    · simp at hl
  | succ f ih =>
    intro l hl hok
    rcases l with _ | ⟨c, rest⟩
    · rfl
    · have hm : matchPW (c :: rest) = none := matchPW_none_of_okText hok
      have : reSplitGo (f + 1) (c :: rest) = consHead c (reSplitGo f rest) := by
        simp only [reSplitGo, hm]
      rw [this, ih rest (by simp only [List.length_cons] at hl; omega) (okText_tail hok)]
      rfl

lemma foldr_consHead (t : List Char) (x : List Char) (xs : List (List Char)) :
    List.foldr consHead (x :: xs) t = (t ++ x) :: xs := by
  induction t with
  | nil => rfl
  | cons c t' ih => rw [List.foldr_cons, ih]; rfl

/-- Scanning a text with no internal match and a non-punctuation final
character just accumulates it in front of the split of the remainder. -/
lemma reSplitGo_text :
    ∀ t : List Char, ∀ fuel, ∀ z : List Char, (t ++ z).length ≤ fuel →
      okText t = true →
      (∀ d, t.getLast? = some d → isPunctC d = false) →
      ∃ g, z.length ≤ g ∧
        reSplitGo fuel (t ++ z) = List.foldr consHead (reSplitGo g z) t := by
  intro t
  induction t with
  | nil =>
    intro fuel z hl _ _
    exact ⟨fuel, by simpa using hl, rfl⟩
  | cons c t' ih =>
    intro fuel z hl hok hlast
    have hm : matchPW ((c :: t') ++ z) = none :=
      matchPW_none_mid (by simp) hok hlast
    obtain ⟨f, hf⟩ : ∃ f, fuel = f + 1 := by
      rcases fuel with _ | f
      · simp at hl
      · exact ⟨f, rfl⟩
    subst hf
    have hstep : reSplitGo (f + 1) ((c :: t') ++ z) =
        consHead c (reSplitGo f (t' ++ z)) := by
      rw [List.cons_append]
      simp only [reSplitGo]
      rw [List.cons_append] at hm
      rw [hm]
    have hok' : okText t' = true := okText_tail hok
    have hlast' : ∀ d, t'.getLast? = some d → isPunctC d = false := by
      intro d hd
      rcases t' with _ | ⟨b, t''⟩
      · simp at hd
      · exact hlast d (by rw [List.getLast?_cons_cons]; exact hd)
    obtain ⟨g, hg1, hg2⟩ := ih f z (by simp only [List.cons_append, List.length_cons] at hl; omega) hok' hlast'
    exact ⟨g, hg1, by rw [hstep, hg2]; rfl⟩

/-! ## Joining sentences back and re-splitting -/

lemma joinSpace_head? {e : List Char} {rest : List (List Char)} (he : e ≠ []) :
    (joinSpace (e :: rest)).head? = e.head? := by
  rcases rest with _ | ⟨x, xs⟩
  · rfl
  · show (e ++ ' ' :: joinSpace (x :: xs)).head? = e.head?
    rw [List.head?_append]
    rcases e with _ | ⟨c, e'⟩
    · exact absurd rfl he
    · rfl

lemma joinSpace_ne_nil {e : List Char} {rest : List (List Char)} (he : e ≠ []) :
    joinSpace (e :: rest) ≠ [] := by
  intro h
  have := @joinSpace_head? e rest he
  rw [h] at this
  rcases e with _ | ⟨c, e'⟩
  · exact absurd rfl he
  · simp at this

lemma joinSpace_getLast? :
    ∀ es : List (List Char),
      (∀ e ∈ es, e ≠ [] ∧ ∀ d, e.getLast? = some d → isSpaceC d = false) →
      ∀ d, (joinSpace es).getLast? = some d → isSpaceC d = false := by
  intro es
  induction es with
  | nil => intro _ d hd; simp [joinSpace] at hd
  | cons e rest ih =>
    intro hall d hd
    rcases rest with _ | ⟨x, xs⟩
    · exact (hall e (by simp)).2 d hd
    · show isSpaceC d = false
      have hd' : (e ++ ' ' :: joinSpace (x :: xs)).getLast? = some d := hd
      rw [List.getLast?_append] at hd'
      have hne : joinSpace (x :: xs) ≠ [] :=
        joinSpace_ne_nil (hall x (by simp)).1
      have hgl : (' ' :: joinSpace (x :: xs)).getLast? = (joinSpace (x :: xs)).getLast? := by
        rcases hj : joinSpace (x :: xs) with _ | ⟨y, ys⟩
        · exact absurd hj hne
        · exact List.getLast?_cons_cons
      rw [hgl] at hd'
      rcases hg : (joinSpace (x :: xs)).getLast? with _ | d'
      · exact absurd (List.getLast?_eq_none_iff.mp hg) hne
      · rw [hg] at hd'
        simp only [Option.or_some, Option.some_inj] at hd'
        exact hd' ▸ ih (fun x' hx' => hall x' (List.mem_cons_of_mem _ hx')) d' hg

/-- Re-splitting the space-join of a `sentsOk` list recovers exactly the
list: this is the heart of idempotence. -/
lemma join_resplit :
    ∀ es : List (List Char), ∀ fuel, sentsOk es → es ≠ [] →
      (joinSpace es).length ≤ fuel →
      reconstruct (reSplitGo fuel (joinSpace es)) = es := by
  intro es
  induction es with
  | nil => intro fuel _ h _; exact absurd rfl h
  | cons e rest ih =>
    intro fuel hok _ hl
    rcases rest with _ | ⟨x, xs⟩
    · -- single sentence
      have hb : sentBase e := hok
      obtain ⟨hne, hot, hh, hg⟩ := hb
      have h1 : joinSpace [e] = e := rfl
      rw [h1] at hl ⊢
      rw [reSplitGo_okText fuel e hl hot]
      show (if pstrip e = [] then [] else [pstrip e]) = [e]
      rw [pstrip_eq_self hh hg, if_neg hne]
    · -- at least two sentences
      obtain ⟨hmid, hrest⟩ : sentMid e ∧ sentsOk (x :: xs) := hok
      obtain ⟨hbase, t, p, hep, htne, htok, hth, htl, hpne, hpa⟩ := hmid
      have hx : sentBase x := by
        rcases xs with _ | ⟨y, ys⟩
        · exact hrest
        · exact hrest.1.1
      have hj : joinSpace (e :: x :: xs) = e ++ ' ' :: joinSpace (x :: xs) := rfl
      have hshape : joinSpace (e :: x :: xs) = t ++ (p ++ ' ' :: joinSpace (x :: xs)) := by
        rw [hj, hep]
        simp
      have hSh : ∀ d, (joinSpace (x :: xs)).head? = some d → isSpaceC d = false := by
        intro d hd
        rw [joinSpace_head? hx.1] at hd
        exact hx.2.2.1 d hd
      have htl1 : ∀ d, t.getLast? = some d → isPunctC d = false :=
        fun d hd => (htl d hd).2
      rw [hshape] at hl ⊢
      obtain ⟨g, hg1, hg2⟩ := reSplitGo_text t fuel (p ++ ' ' :: joinSpace (x :: xs)) hl htok htl1
      rw [hg2]
      obtain ⟨zc, ztail, hz⟩ : ∃ zc ztail, p ++ ' ' :: joinSpace (x :: xs) = zc :: ztail := by
        rcases p with _ | ⟨pc, p'⟩
        · exact absurd rfl hpne
        · exact ⟨pc, p' ++ ' ' :: joinSpace (x :: xs), by simp⟩
      obtain ⟨g', hgg⟩ : ∃ g', g = g' + 1 := by
        rcases hgz : g with _ | g'
        · rw [hz, hgz] at hg1; simp at hg1
        · exact ⟨g', rfl⟩
      have hmz : matchPW (p ++ ' ' :: joinSpace (x :: xs)) = some (p, joinSpace (x :: xs)) :=
        matchPW_exact hpne hpa hSh
      have hgo : reSplitGo g (p ++ ' ' :: joinSpace (x :: xs)) =
          [] :: p :: reSplitGo g' (joinSpace (x :: xs)) := by
        rw [hgg, hz]
        simp only [reSplitGo]
        rw [← hz, hmz]
      rw [hgo, foldr_consHead]
      have hgrest : (joinSpace (x :: xs)).length ≤ g' := by
        rw [hz] at hg1
        simp only [List.length_cons] at hg1
        have : ztail.length = p.length - 1 + (' ' :: joinSpace (x :: xs)).length := by
          have := congrArg List.length hz
          simp only [List.length_append, List.length_cons] at this
          rcases p with _ | ⟨pc, p'⟩
          · exact absurd rfl hpne
          · simp only [List.length_cons] at this ⊢
            omega
        simp only [List.length_cons] at this
        omega
      have hrec := ih g' hrest (by simp) hgrest
      show reconstruct ((t ++ []) :: p :: reSplitGo g' (joinSpace (x :: xs))) = _
      rw [List.append_nil]
      show (if pstrip t = [] then reconstruct (reSplitGo g' (joinSpace (x :: xs)))
        else pstrip (pstrip t ++ p) :: reconstruct (reSplitGo g' (joinSpace (x :: xs)))) = _
      have hpt : pstrip t = t :=
        pstrip_eq_self hth (fun d hd => (htl d hd).1)
      rw [hpt, if_neg htne, hrec]
      have hptp : pstrip (t ++ p) = t ++ p := by
        refine pstrip_eq_self ?_ ?_
        · intro d hd
          rw [List.head?_append] at hd
          rcases t with _ | ⟨c, t'⟩
          · exact absurd rfl htne
          · simp only [List.head?_cons, Option.or_some, Option.some_inj] at hd
            exact hth d (by rw [List.head?_cons, hd])
        · intro d hd
          rw [List.getLast?_append] at hd
          rcases hpl : p.getLast? with _ | d'
          · exact absurd (List.getLast?_eq_none_iff.mp hpl) hpne
          · rw [hpl] at hd
            simp only [Option.or_some, Option.some_inj] at hd
            exact hd ▸ not_space_of_punct (hpa d' (getLast?_mem' hpl))
      rw [hptp, ← hep]

/-! ## The sentences produced by `reconstruct` satisfy the invariants -/

lemma sentsOk_cons {e : List Char} {L : List (List Char)}
    (hm : sentMid e) (hL : sentsOk L) : sentsOk (e :: L) := by
  rcases L with _ | ⟨x, xs⟩
  · exact hm.1
  · exact ⟨hm, hL⟩

lemma sentsOk_mem :
    ∀ es : List (List Char), sentsOk es → ∀ e ∈ es, sentBase e := by
  intro es
  induction es with
  | nil => intro _ e he; simp at he
  | cons x xs ih =>
    intro hok e he
    rcases List.mem_cons.mp he with rfl | he
    · rcases xs with _ | ⟨y, ys⟩
      · exact hok
      · exact hok.1.1
    · rcases xs with _ | ⟨y, ys⟩
      · simp at he
      · exact ih hok.2 e he

lemma rel_sentsOk : ∀ {l : List Char} {out : List (List Char)},
    SplitRel l out → sentsOk (reconstruct out) := by
  intro l out h
  induction h with
  | last t hok =>
    show sentsOk (if pstrip t = [] then [] else [pstrip t])
    split
    · trivial
    · rename_i hne
      exact ⟨hne, okText_pstrip hok, pstrip_head?_not_space t, pstrip_getLast?_not_space t⟩
  | cons t p sp rest her h1 h2 h3 h4 h5 h6 h7 ih =>
    show sentsOk (if pstrip t = [] then reconstruct her
      else pstrip (pstrip t ++ p) :: reconstruct her)
    split
    · exact ih
    · rename_i hne
      have hphead : ∀ d, (pstrip t ++ p).head? = some d → isSpaceC d = false := by
        intro d hd
        rw [List.head?_append] at hd
        rcases hx : (pstrip t).head? with _ | d'
        · exact absurd (List.head?_eq_none_iff.mp hx) hne
        · rw [hx] at hd
          simp only [Option.or_some, Option.some_inj] at hd
          exact hd ▸ pstrip_head?_not_space t d' hx
      have hplast : ∀ d, (pstrip t ++ p).getLast? = some d → isSpaceC d = false := by
        intro d hd
        rw [List.getLast?_append] at hd
        rcases hx : p.getLast? with _ | d'
        · exact absurd (List.getLast?_eq_none_iff.mp hx) h3
        · rw [hx] at hd
          simp only [Option.or_some, Option.some_inj] at hd
          exact hd ▸ not_space_of_punct (h4 d' (getLast?_mem' hx))
      have heq : pstrip (pstrip t ++ p) = pstrip t ++ p := by
        refine pstrip_eq_self ?_ ?_ <;> assumption
      rw [heq]
      refine sentsOk_cons ⟨⟨?_, ?_, hphead, hplast⟩, pstrip t, p, rfl, hne, ?_, ?_, ?_, h3, h4⟩ ih
      · intro hx
        rcases hy : pstrip t with _ | ⟨y, ys⟩
        · exact hne hy
        · rw [hy] at hx; simp at hx
      · refine okText_append (okText_pstrip h1) (okText_all_punct h4) ?_
        intro a b _ hb
        rcases hp : p with _ | ⟨pc, p'⟩
        · exact absurd hp h3
        · rw [hp] at hb
          simp only [List.head?_cons, Option.some_inj] at hb
          have := h4 b (by rw [hp, ← hb]; simp)
          rw [not_space_of_punct this, Bool.and_false]
      · exact okText_pstrip h1
      · exact pstrip_head?_not_space t
      · intro d hd
        exact ⟨pstrip_getLast?_not_space t d hd, h2 d hd⟩

/-! ## Lemmas about the dedup loop -/

lemma cleanLoop_sentsOk :
    ∀ es : List (List Char), ∀ seen, sentsOk es → sentsOk (cleanLoop seen es) := by
  intro es
  induction es with
  | nil => intro seen _; trivial
  | cons s rest ih =>
    intro seen hok
    have hrest : sentsOk rest := by
      rcases rest with _ | ⟨x, xs⟩
      · trivial
      · exact hok.2
    show sentsOk (if normalizeS s ≠ [] ∧ normalizeS s ∉ seen ∧ 5 < (normalizeS s).length
      then s :: cleanLoop (normalizeS s :: seen) rest else cleanLoop seen rest)
    split
    · rcases rest with _ | ⟨x, xs⟩
      · exact hok
      · exact sentsOk_cons hok.1 (ih _ hrest)
    · exact ih _ hrest

lemma cleanLoop_idem :
    ∀ es : List (List Char), ∀ seen,
      cleanLoop seen (cleanLoop seen es) = cleanLoop seen es := by
  intro es
  induction es with
  | nil => intro seen; rfl
  | cons s rest ih =>
    intro seen
    by_cases hc : normalizeS s ≠ [] ∧ normalizeS s ∉ seen ∧ 5 < (normalizeS s).length
    · have h1 : cleanLoop seen (s :: rest) = s :: cleanLoop (normalizeS s :: seen) rest := by
        show (if _ then _ else _) = _
        rw [if_pos hc]
      rw [h1]
      have h2 : cleanLoop seen (s :: cleanLoop (normalizeS s :: seen) rest) =
          s :: cleanLoop (normalizeS s :: seen) (cleanLoop (normalizeS s :: seen) rest) := by
        show (if _ then _ else _) = _
        rw [if_pos hc]
      rw [h2, ih (normalizeS s :: seen)]
    · have h1 : cleanLoop seen (s :: rest) = cleanLoop seen rest := by
        show (if _ then _ else _) = _
        rw [if_neg hc]
      rw [h1, ih seen]

lemma cleanLoop_kept :
    ∀ es : List (List Char), ∀ seen, ∀ e ∈ cleanLoop seen es,
      normalizeS e ≠ [] ∧ 5 < (normalizeS e).length := by
  intro es
  induction es with
  | nil => intro seen e he; simp [cleanLoop] at he
  | cons s rest ih =>
    intro seen e he
    rw [show cleanLoop seen (s :: rest) =
      (if normalizeS s ≠ [] ∧ normalizeS s ∉ seen ∧ 5 < (normalizeS s).length
       then s :: cleanLoop (normalizeS s :: seen) rest
       else cleanLoop seen rest) from rfl] at he
    split at he
    · rename_i hc
      rcases List.mem_cons.mp he with rfl | he
      · exact ⟨hc.1, hc.2.2⟩
      · exact ih _ e he
    · exact ih _ e he

/-! ## Claim theorems for the text cleaner -/

/-- C3: `_clean_repetitive_text` is idempotent: cleaning an
already-cleaned string returns it unchanged. -/
theorem cleanText_idempotent (l : List Char) :
    cleanText (cleanText l) = cleanText l := by
  by_cases h0 : l = []
  · subst h0; rfl
  · by_cases h1 : pstrip l = []
    · have hcl : cleanText l = [] := by
        unfold cleanText
        rw [if_neg h0, if_pos h1, h1]
      rw [hcl]
      rfl
    · by_cases h2 : joinSpace (cleanedSentences (pstrip l)) = []
      · have hcl : cleanText l = pstrip l := by
          unfold cleanText
          rw [if_neg h0, if_neg h1, if_pos h2]
        rw [hcl]
        unfold cleanText
        rw [if_neg h1, pstrip_idem, if_neg h1, if_pos h2]
      · have hcl : cleanText l = joinSpace (cleanedSentences (pstrip l)) := by
          unfold cleanText
          rw [if_neg h0, if_neg h1, if_neg h2]
        set R := joinSpace (cleanedSentences (pstrip l)) with hR
        rw [hcl]
        have hfull : sentsOk (fullSentences (pstrip l)) :=
          rel_sentsOk (reSplitGo_rel (pstrip l).length (pstrip l) le_rfl)
        have hclean : sentsOk (cleanedSentences (pstrip l)) :=
          cleanLoop_sentsOk _ _ hfull
        have hCne : cleanedSentences (pstrip l) ≠ [] := by
          intro hx
          apply h2
          rw [hR, hx]
          rfl
        obtain ⟨e, cs, hecs⟩ : ∃ e cs, cleanedSentences (pstrip l) = e :: cs := by
          rcases hx : cleanedSentences (pstrip l) with _ | ⟨e, cs⟩
          · exact absurd hx hCne
          · exact ⟨e, cs, rfl⟩
        have hbase : ∀ x ∈ cleanedSentences (pstrip l), sentBase x :=
          sentsOk_mem _ hclean
        have hbe : sentBase e := hbase e (by rw [hecs]; simp)
        have hpR : pstrip R = R := by
          refine pstrip_eq_self ?_ ?_
          · intro d hd
            rw [hR, hecs, joinSpace_head? hbe.1] at hd
            exact hbe.2.2.1 d hd
          · refine joinSpace_getLast? _ ?_
            intro x hx
            exact ⟨(hbase x hx).1, (hbase x hx).2.2.2⟩
        have hRne : R ≠ [] := h2
        have hres : fullSentences R = cleanedSentences (pstrip l) := by
          show reconstruct (reSplitGo R.length R) = _
          conv_lhs => rw [hR]
          exact join_resplit _ _ hclean hCne le_rfl
        have hcsR : cleanedSentences R = cleanedSentences (pstrip l) := by
          show cleanLoop [] (fullSentences R) = _
          rw [hres]
          show cleanLoop [] (cleanLoop [] (fullSentences (pstrip l))) = _
          exact cleanLoop_idem _ _
        unfold cleanText
        rw [if_neg hRne, hpR, if_neg hRne, hcsR]
        rw [← hR, if_neg hRne]

/-- C1 counterexample: on the input `"A. A. B."` every sentence normalizes
to at most 5 characters, so nothing survives the dedup filter and the
function falls back to returning the stripped input unchanged — not
`"A. B."` as claimed. -/
theorem cleanText_AAB_ne_AB :
    cleanText ("A. A. B.".toList) ≠ "A. B.".toList := by decide

/-- C1 (amended): on `"A. A. B."` the cleaner returns the input unchanged,
because all three sentences have normalized length ≤ 5, the cleaned list
is empty, and the `return result if result else text` fallback fires. -/
theorem cleanText_AAB_unchanged :
    cleanText ("A. A. B.".toList) = "A. A. B.".toList := by decide

/-- C2 counterexample: the unique short sentence `"Hi."` (normalized
length 3) is silently removed on its very first occurrence; it never
reaches the output. -/
theorem cleanText_drops_short_first_occurrence :
    cleanText ("Hello world today. Hi.".toList) = "Hello world today.".toList := by
  decide

/-- C2 (amended): a sentence whose normalization is empty or at most 5
characters long is never placed in the cleaned sentence list, even on its
first occurrence — the length test gates the output, not only the seen
set.  (When this leaves no sentence at all, the whole stripped input is
returned by the fallback instead.) -/
theorem short_sentences_never_kept (l : List Char) (e : List Char)
    (he : e ∈ cleanedSentences l) :
    normalizeS e ≠ [] ∧ 5 < (normalizeS e).length :=
  cleanLoop_kept _ _ e he

/-- Witness for `short_sentences_never_kept` at a concrete input. -/
theorem short_sentences_never_kept_witness :
    "Hello world today.".toList ∈ cleanedSentences ("Hello world today. Hi.".toList) ∧
      (normalizeS ("Hello world today.".toList) ≠ [] ∧
        5 < (normalizeS ("Hello world today.".toList)).length) :=
  ⟨by decide, short_sentences_never_kept ("Hello world today. Hi.".toList)
    ("Hello world today.".toList) (by decide)⟩

/-! ## Section grouper lemmas (C4) -/

lemma mem_addToSection_self :
    ∀ secs : List (String × List EventRec), ∀ name e,
      e ∈ sectionEvents (addToSection secs name e) name := by
  intro secs
  induction secs with
  | nil =>
    intro name e
    show e ∈ sectionEvents [(name, [e])] name
    simp [sectionEvents, lookupStr]
  | cons hd rest ih =>
    intro name e
    obtain ⟨n, es⟩ := hd
    show e ∈ sectionEvents
      (if n = name then (n, es ++ [e]) :: rest else (n, es) :: addToSection rest name e) name
    by_cases h : n = name
    · rw [if_pos h]
      subst h
      simp [sectionEvents, lookupStr]
    · rw [if_neg h]
      show e ∈ (if n = name then some (es) else lookupStr (addToSection rest name e) name).getD []
      rw [if_neg h]
      exact ih name e

lemma mem_addToSection_preserve :
    ∀ secs : List (String × List EventRec), ∀ name x b e,
      e ∈ sectionEvents secs b → e ∈ sectionEvents (addToSection secs name x) b := by
  intro secs
  induction secs with
  | nil =>
    intro name x b e he
    simp [sectionEvents, lookupStr] at he
  | cons hd rest ih =>
    intro name x b e he
    obtain ⟨n, es⟩ := hd
    show e ∈ sectionEvents
      (if n = name then (n, es ++ [x]) :: rest else (n, es) :: addToSection rest name x) b
    by_cases h : n = name
    · rw [if_pos h]
      by_cases hb : n = b
      · show e ∈ (if n = b then some (es ++ [x]) else lookupStr rest b).getD []
        rw [if_pos hb]
        have he' : e ∈ es := by
          have : e ∈ (if n = b then some es else lookupStr rest b).getD [] := he
          rw [if_pos hb] at this
          exact this
        exact List.mem_append_left _ he'
      · show e ∈ (if n = b then some (es ++ [x]) else lookupStr rest b).getD []
        rw [if_neg hb]
        have he' : e ∈ (lookupStr rest b).getD [] := by
          have : e ∈ (if n = b then some es else lookupStr rest b).getD [] := he
          rw [if_neg hb] at this
          exact this
        exact he'
    · rw [if_neg h]
      by_cases hb : n = b
      · show e ∈ (if n = b then some es else lookupStr (addToSection rest name x) b).getD []
        rw [if_pos hb]
        have : e ∈ (if n = b then some es else lookupStr rest b).getD [] := he
        rw [if_pos hb] at this
        exact this
      · show e ∈ (if n = b then some es else lookupStr (addToSection rest name x) b).getD []
        rw [if_neg hb]
        have : e ∈ (if n = b then some es else lookupStr rest b).getD [] := he
        rw [if_neg hb] at this
        exact ih name x b e this

lemma mem_addToSection_inv :
    ∀ secs : List (String × List EventRec), ∀ name x b e,
      e ∈ sectionEvents (addToSection secs name x) b →
        e ∈ sectionEvents secs b ∨ e = x := by
  intro secs
  induction secs with
  | nil =>
    intro name x b e he
    have : e ∈ (if name = b then some [x] else none).getD [] := he
    by_cases hb : name = b
    · rw [if_pos hb] at this
      right
      simpa using this
    · rw [if_neg hb] at this
      simp at this
  | cons hd rest ih =>
    intro name x b e he
    obtain ⟨n, es⟩ := hd
    by_cases h : n = name
    · have he' : e ∈ sectionEvents ((n, es ++ [x]) :: rest) b := by
        have : addToSection ((n, es) :: rest) name x = (n, es ++ [x]) :: rest := by
          show (if n = name then (n, es ++ [x]) :: rest else _) = _
          rw [if_pos h]
        rw [this] at he
        exact he
      by_cases hb : n = b
      · have : e ∈ (if n = b then some (es ++ [x]) else lookupStr rest b).getD [] := he'
        rw [if_pos hb] at this
        rcases List.mem_append.mp this with hm | hm
        · left
          show e ∈ (if n = b then some es else lookupStr rest b).getD []
          rw [if_pos hb]
          exact hm
        · right
          simpa using hm
      · have : e ∈ (if n = b then some (es ++ [x]) else lookupStr rest b).getD [] := he'
        rw [if_neg hb] at this
        left
        show e ∈ (if n = b then some es else lookupStr rest b).getD []
        rw [if_neg hb]
        exact this
    · have he' : e ∈ sectionEvents ((n, es) :: addToSection rest name x) b := by
        have heq : addToSection ((n, es) :: rest) name x =
            (n, es) :: addToSection rest name x := by
          show (if n = name then _ else (n, es) :: addToSection rest name x) = _
          rw [if_neg h]
        rw [heq] at he
        exact he
      by_cases hb : n = b
      · have : e ∈ (if n = b then some es else lookupStr (addToSection rest name x) b).getD [] := he'
        rw [if_pos hb] at this
        left
        show e ∈ (if n = b then some es else lookupStr rest b).getD []
        rw [if_pos hb]
        exact this
      · have : e ∈ (if n = b then some es else lookupStr (addToSection rest name x) b).getD [] := he'
        rw [if_neg hb] at this
        rcases ih name x b e this with hm | hm
        · left
          show e ∈ (if n = b then some es else lookupStr rest b).getD []
          rw [if_neg hb]
          exact hm
        · right
          exact hm

lemma groupEventsAux_some :
    ∀ evs : List EventRec, ∀ secs e s, getSection e = some s →
      (e ∈ evs ∨ e ∈ sectionEvents secs s) →
      e ∈ sectionEvents (groupEventsAux secs evs) s := by
  intro evs
  induction evs with
  | nil =>
    intro secs e s _ hin
    rcases hin with hin | hin
    · simp at hin
    · exact hin
  | cons x rest ih =>
    intro secs e s hs hin
    rcases hx : getSection x with _ | s'
    · have hgo : groupEventsAux secs (x :: rest) = groupEventsAux secs rest := by
        show (match getSection x with
          | none => groupEventsAux secs rest
          | some s' => groupEventsAux (addToSection secs s' x) rest) = _
        rw [hx]
      rw [hgo]
      rcases hin with hin | hin
      · rcases List.mem_cons.mp hin with rfl | hin
        · rw [hs] at hx; exact absurd hx (by simp)
        · exact ih secs e s hs (Or.inl hin)
      · exact ih secs e s hs (Or.inr hin)
    · have hgo : groupEventsAux secs (x :: rest) =
          groupEventsAux (addToSection secs s' x) rest := by
        show (match getSection x with
          | none => groupEventsAux secs rest
          | some s' => groupEventsAux (addToSection secs s' x) rest) = _
        rw [hx]
      rw [hgo]
      rcases hin with hin | hin
      · rcases List.mem_cons.mp hin with rfl | hin
        · have hss : s' = s := by rw [hs] at hx; simpa using hx.symm
          subst hss
          exact ih _ e s' hs (Or.inr (mem_addToSection_self secs s' e))
        · exact ih _ e s hs (Or.inl hin)
      · exact ih _ e s hs (Or.inr (mem_addToSection_preserve secs s' x s e hin))

lemma groupEventsAux_none :
    ∀ evs : List EventRec, ∀ secs e, getSection e = none →
      (∀ b, e ∉ sectionEvents secs b) →
      ∀ b, e ∉ sectionEvents (groupEventsAux secs evs) b := by
  intro evs
  induction evs with
  | nil => intro secs e _ hout b; exact hout b
  | cons x rest ih =>
    intro secs e hs hout b
    rcases hx : getSection x with _ | s'
    · have hgo : groupEventsAux secs (x :: rest) = groupEventsAux secs rest := by
        show (match getSection x with
          | none => groupEventsAux secs rest
          | some s' => groupEventsAux (addToSection secs s' x) rest) = _
        rw [hx]
      rw [hgo]
      exact ih secs e hs hout b
    · have hgo : groupEventsAux secs (x :: rest) =
          groupEventsAux (addToSection secs s' x) rest := by
        show (match getSection x with
          | none => groupEventsAux secs rest
          | some s' => groupEventsAux (addToSection secs s' x) rest) = _
        rw [hx]
      rw [hgo]
      refine ih _ e hs ?_ b
      intro b' hb'
      rcases mem_addToSection_inv secs s' x b' e hb' with hm | rfl
      · exact hout b' hm
      · rw [hs] at hx; simp at hx

/-! ## Claim theorems for the section grouper (C4) -/

/-- C4 counterexample: an event with a non-null `Event Title` whose
`Department/Section` value is NaN is dropped from the grouped sections
entirely — it is not placed in the `OTHER ACTIVITIES` bucket
(`pd.notna(section)` fails, so the event is skipped). -/
theorem groupEvents_na_dropped :
    groupEvents [{ title := some "Workshop", dept := Cell.na }] = [] ∧
      sectionEvents (groupEvents [{ title := some "Workshop", dept := Cell.na }])
        "OTHER ACTIVITIES" = [] :=
  ⟨rfl, rfl⟩

/-- C4 (amended): an event whose `Department/Section` *key* is missing is
grouped under `OTHER ACTIVITIES` (the `dict.get` default), while an event
whose `Department/Section` *value* is NaN fails `pd.notna` and is dropped
from every section. -/
theorem groupEvents_section_routing (evs : List EventRec) (e : EventRec)
    (he : e ∈ evs) :
    (e.dept = Cell.absent → e ∈ sectionEvents (groupEvents evs) "OTHER ACTIVITIES") ∧
      (e.dept = Cell.na → ∀ b, e ∉ sectionEvents (groupEvents evs) b) := by
  constructor
  · intro hd
    refine groupEventsAux_some evs [] e _ ?_ (Or.inl he)
    show (match e.dept with
      | Cell.absent => some "OTHER ACTIVITIES"
      | Cell.na => none
      | Cell.val s => some s) = some "OTHER ACTIVITIES"
    rw [hd]
  · intro hd b
    refine groupEventsAux_none evs [] e ?_ ?_ b
    · show (match e.dept with
        | Cell.absent => some "OTHER ACTIVITIES"
        | Cell.na => none
        | Cell.val s => some s) = none
      rw [hd]
    · intro b' hb'
      simp [sectionEvents, lookupStr] at hb'

/-- Witness for `groupEvents_section_routing` at a concrete input. -/
theorem groupEvents_section_routing_witness :
    ({ title := some "Seminar", dept := Cell.absent } : EventRec) ∈
      sectionEvents
        (groupEvents [{ title := some "Seminar", dept := Cell.absent }])
        "OTHER ACTIVITIES" :=
  (groupEvents_section_routing [{ title := some "Seminar", dept := Cell.absent }]
    { title := some "Seminar", dept := Cell.absent } (by decide)).1 rfl

/-! ## Sorting and page-map lemmas (C6) -/

lemma lexLe_total : ∀ a b : List Char, lexLe a b = true ∨ lexLe b a = true := by
  intro a
  induction a with
  | nil => intro b; left; rfl
  | cons x as ih =>
    intro b
    rcases b with _ | ⟨y, bs⟩
    · right; rfl
    · show (if x.toNat < y.toNat then true
        else if y.toNat < x.toNat then false else lexLe as bs) = true ∨
        (if y.toNat < x.toNat then true
        else if x.toNat < y.toNat then false else lexLe bs as) = true
      by_cases h1 : x.toNat < y.toNat
      · left; rw [if_pos h1]
      · by_cases h2 : y.toNat < x.toNat
        · right; rw [if_pos h2]
        · rw [if_neg h1, if_neg h2, if_neg h2, if_neg h1]
          exact ih bs

lemma lexLe_cons_iff {x y : Char} {as bs : List Char} :
    lexLe (x :: as) (y :: bs) = true ↔
      (x.toNat < y.toNat ∨ (x.toNat = y.toNat ∧ lexLe as bs = true)) := by
  show (if x.toNat < y.toNat then true
    else if y.toNat < x.toNat then false else lexLe as bs) = true ↔ _
  by_cases h1 : x.toNat < y.toNat
  · rw [if_pos h1]
    simp [h1]
  · rw [if_neg h1]
    by_cases h2 : y.toNat < x.toNat
    · rw [if_pos h2]
      constructor
      · intro h; exact absurd h (by simp)
      · intro h
        rcases h with h | ⟨h, _⟩ <;> omega
    · rw [if_neg h2]
      constructor
      · intro h
        right
        exact ⟨by omega, h⟩
      · intro h
        rcases h with h | ⟨_, h⟩
        · omega
        · exact h

lemma lexLe_trans :
    ∀ a b c : List Char, lexLe a b = true → lexLe b c = true → lexLe a c = true := by
  intro a
  induction a with
  | nil => intro b c _ _; rfl
  | cons x as ih =>
    intro b c hab hbc
    rcases b with _ | ⟨y, bs⟩
    · exact absurd hab (by simp [lexLe])
    · rcases c with _ | ⟨z, cs⟩
      · exact absurd hbc (by simp [lexLe])
      · rw [lexLe_cons_iff] at hab hbc ⊢
        rcases hab with h1 | ⟨h1, h1'⟩
        · rcases hbc with h2 | ⟨h2, _⟩
          · left; omega
          · left; omega
        · rcases hbc with h2 | ⟨h2, h2'⟩
          · left; omega
          · right
            exact ⟨by omega, ih bs cs h1' h2'⟩

lemma strLe_total (a b : String) : strLe a b = true ∨ strLe b a = true :=
  lexLe_total a.toList b.toList

lemma strLe_trans {a b c : String} (h1 : strLe a b = true) (h2 : strLe b c = true) :
    strLe a c = true :=
  lexLe_trans a.toList b.toList c.toList h1 h2

lemma insertSorted_perm :
    ∀ l : List String, ∀ s, (insertSorted s l).Perm (s :: l) := by
  intro l
  induction l with
  | nil => intro s; exact List.Perm.refl _
  | cons t rest ih =>
    intro s
    show (if strLe s t then s :: t :: rest else t :: insertSorted s rest).Perm _
    split
    · exact List.Perm.refl _
    · exact ((ih s).cons t).trans (List.Perm.swap s t rest)

lemma sortStrings_perm : ∀ l : List String, (sortStrings l).Perm l := by
  intro l
  induction l with
  | nil => exact List.Perm.refl _
  | cons s rest ih =>
    exact (insertSorted_perm (sortStrings rest) s).trans (ih.cons s)

lemma insertSorted_pairwise :
    ∀ l : List String, ∀ s, List.Pairwise (fun a b => strLe a b = true) l →
      List.Pairwise (fun a b => strLe a b = true) (insertSorted s l) := by
  intro l
  induction l with
  | nil =>
    intro s _
    show List.Pairwise _ [s]
    exact List.pairwise_singleton _ _
  | cons t rest ih =>
    intro s hp
    show List.Pairwise _ (if strLe s t then s :: t :: rest else t :: insertSorted s rest)
    split
    · rename_i hst
      refine List.pairwise_cons.mpr ⟨?_, hp⟩
      intro x hx
      rcases List.mem_cons.mp hx with rfl | hx
      · exact hst
      · exact strLe_trans hst ((List.pairwise_cons.mp hp).1 x hx)
    · rename_i hst
      have hts : strLe t s = true := by
        rcases strLe_total s t with h | h
        · exact absurd h hst
        · exact h
      refine List.pairwise_cons.mpr ⟨?_, ih s (List.pairwise_cons.mp hp).2⟩
      intro x hx
      have hx' : x ∈ s :: rest := (insertSorted_perm rest s).mem_iff.mp hx
      rcases List.mem_cons.mp hx' with rfl | hx'
      · exact hts
      · exact (List.pairwise_cons.mp hp).1 x hx'

lemma sortStrings_pairwise :
    ∀ l : List String, List.Pairwise (fun a b => strLe a b = true) (sortStrings l) := by
  intro l
  induction l with
  | nil => simp [sortStrings]
  | cons s rest ih => exact insertSorted_pairwise (sortStrings rest) s ih

lemma map_fst_addToSection :
    ∀ secs : List (String × List EventRec), ∀ name e,
      (addToSection secs name e).map Prod.fst =
        if name ∈ secs.map Prod.fst then secs.map Prod.fst
        else secs.map Prod.fst ++ [name] := by
  intro secs
  induction secs with
  | nil => intro name e; simp [addToSection]
  | cons hd rest ih =>
    intro name e
    obtain ⟨n, es⟩ := hd
    show ((if n = name then (n, es ++ [e]) :: rest
      else (n, es) :: addToSection rest name e).map Prod.fst) = _
    by_cases h : n = name
    · rw [if_pos h]
      subst h
      simp
    · rw [if_neg h]
      simp only [List.map_cons]
      rw [ih name e]
      by_cases hm : name ∈ rest.map Prod.fst
      · rw [if_pos hm, if_pos (by simp [hm])]
      · rw [if_neg hm, if_neg (by
          simp only [List.map_cons, List.mem_cons]
          push_neg
          exact ⟨fun hx => h hx.symm, hm⟩)]
        simp

lemma groupEventsAux_keys_nodup :
    ∀ evs : List EventRec, ∀ secs : List (String × List EventRec),
      (secs.map Prod.fst).Nodup → ((groupEventsAux secs evs).map Prod.fst).Nodup := by
  intro evs
  induction evs with
  | nil => intro secs h; exact h
  | cons x rest ih =>
    intro secs h
    rcases hx : getSection x with _ | s'
    · have hgo : groupEventsAux secs (x :: rest) = groupEventsAux secs rest := by
        show (match getSection x with
          | none => groupEventsAux secs rest
          | some s' => groupEventsAux (addToSection secs s' x) rest) = _
        rw [hx]
      rw [hgo]
      exact ih secs h
    · have hgo : groupEventsAux secs (x :: rest) =
          groupEventsAux (addToSection secs s' x) rest := by
        show (match getSection x with
          | none => groupEventsAux secs rest
          | some s' => groupEventsAux (addToSection secs s' x) rest) = _
        rw [hx]
      rw [hgo]
      refine ih _ ?_
      rw [map_fst_addToSection]
      split
      · exact h
      · rename_i hnm
        rw [List.nodup_append]
        exact ⟨h, List.nodup_singleton _, by
          intro a ha hb
          rw [List.mem_singleton.mp hb] at ha
          exact hnm ha⟩

lemma sortedSections_nodup (evs : List EventRec) :
    (sortedSections (groupEvents evs)).Nodup :=
  (sortStrings_perm _).nodup_iff.mpr (groupEventsAux_keys_nodup evs [] (by simp))

lemma pageMapFrom_lookup :
    ∀ ss : List String, ∀ k i, ∀ h : i < ss.length, ss.Nodup →
      lookupStr (pageMapFrom k ss) (ss.get ⟨i, h⟩) = some (4 + k + i) := by
  intro ss
  induction ss with
  | nil => intro k i h _; simp at h
  | cons n rest ih =>
    intro k i h hnd
    rcases i with _ | i
    · show (if n = n then some (4 + k) else _) = some (4 + k + 0)
      rw [if_pos rfl]
      rfl
    · have hget : (n :: rest).get ⟨i + 1, h⟩ = rest.get ⟨i, by simpa using h⟩ := rfl
      rw [hget]
      have hne : n ≠ rest.get ⟨i, by simpa using h⟩ := by
        intro hx
        have : rest.get ⟨i, by simpa using h⟩ ∈ rest := List.get_mem rest i _
        rw [← hx] at this
        exact (List.nodup_cons.mp hnd).1 this
      show (if n = rest.get ⟨i, by simpa using h⟩ then some (4 + k)
        else lookupStr (pageMapFrom (k + 1) rest) (rest.get ⟨i, by simpa using h⟩)) = _
      rw [if_neg hne]
      rw [show 4 + k + (i + 1) = 4 + (k + 1) + i by omega]
      exact ih (k + 1) i (by simpa using h) (List.nodup_cons.mp hnd).2

lemma pageMapFrom_map_snd :
    ∀ ss : List String, ∀ k,
      (pageMapFrom k ss).map Prod.snd = List.range' (4 + k) ss.length := by
  intro ss
  induction ss with
  | nil => intro k; rfl
  | cons n rest ih =>
    intro k
    show (4 + k) :: (pageMapFrom (k + 1) rest).map Prod.snd = List.range' (4 + k) (rest.length + 1)
    rw [ih (k + 1), List.range'_succ]
    rw [show 4 + (k + 1) = 4 + k + 1 by omega]

/-! ## Claim theorem for the page map and rendering order (C6) -/

/-- C6: pages are `4 + rank` in the sorted section list; the page numbers
are exactly `range' 4 n` (distinct and consecutive, hence strictly
increasing with rank); the template emits section pages in exactly the
sorted order used for the table of contents; and the section list is
lexicographically sorted. -/
theorem sectionPageMap_spec (evs : List EventRec) (i : Nat)
    (h : i < (sortedSections (groupEvents evs)).length) :
    lookupStr (sectionPageMap (sortedSections (groupEvents evs)))
        ((sortedSections (groupEvents evs)).get ⟨i, h⟩) = some (4 + i) ∧
      (sectionPageMap (sortedSections (groupEvents evs))).map Prod.snd =
        List.range' 4 (sortedSections (groupEvents evs)).length ∧
      ((sectionPageMap (sortedSections (groupEvents evs))).map Prod.snd).Nodup ∧
      (renderSectionPages (groupEvents evs)).map Prod.fst =
        sortedSections (groupEvents evs) ∧
      List.Pairwise (fun a b => strLe a b = true)
        (sortedSections (groupEvents evs)) := by
  refine ⟨?_, ?_, ?_, ?_, sortStrings_pairwise _⟩
  · have := pageMapFrom_lookup (sortedSections (groupEvents evs)) 0 i h
      (sortedSections_nodup evs)
    rw [show 4 + 0 + i = 4 + i by omega] at this
    exact this
  · have := pageMapFrom_map_snd (sortedSections (groupEvents evs)) 0
    rw [show 4 + 0 = 4 by omega] at this
    exact this
  · rw [show (sectionPageMap (sortedSections (groupEvents evs))).map Prod.snd =
      List.range' 4 (sortedSections (groupEvents evs)).length from (by
        have := pageMapFrom_map_snd (sortedSections (groupEvents evs)) 0
        rw [show 4 + 0 = 4 by omega] at this
        exact this)]
    exact List.nodup_range' _ _
  · show ((sortedSections (groupEvents evs)).map
      (fun n => (n, sectionEvents (groupEvents evs) n))).map Prod.fst = _
    rw [List.map_map]
    exact List.map_id _

/-- Witness for `sectionPageMap_spec`: with sections Gamma, Alpha, Beta the
sorted list is Alpha, Beta, Gamma and rank 1 (Beta) gets page 5. -/
theorem sectionPageMap_spec_witness :
    1 < (sortedSections (groupEvents
        [{ title := some "e1", dept := Cell.val "Gamma" },
         { title := some "e2", dept := Cell.val "Alpha" },
         { title := some "e3", dept := Cell.val "Beta" }])).length ∧
      lookupStr
        (sectionPageMap (sortedSections (groupEvents
          [{ title := some "e1", dept := Cell.val "Gamma" },
           { title := some "e2", dept := Cell.val "Alpha" },
           { title := some "e3", dept := Cell.val "Beta" }])))
        ((sortedSections (groupEvents
          [{ title := some "e1", dept := Cell.val "Gamma" },
           { title := some "e2", dept := Cell.val "Alpha" },
           { title := some "e3", dept := Cell.val "Beta" }])).get ⟨1, by decide⟩) =
        some (4 + 1) :=
  ⟨by decide,
    (sectionPageMap_spec
      [{ title := some "e1", dept := Cell.val "Gamma" },
       { title := some "e2", dept := Cell.val "Alpha" },
       { title := some "e3", dept := Cell.val "Beta" }] 1 (by decide)).1⟩

/-! ## Claim theorems for the loader (C5) -/

/-- C5 counterexample: `Newsletter Info` is also read unconditionally, so
a spreadsheet missing only that sheet fails to load — it does not succeed
with an empty info table as the claim (sheets other than Editorial Board
and Department Events optional) would require. -/
theorem loadData_missing_newsletter_info_fails :
    loadData { readable := true, newsletterInfo := none, editorialBoard := some [],
               visionMission := none, programObjectives := none,
               programOutcomes := none, departmentEvents := some [],
               contactInfo := none } =
      Except.error "Error loading Excel: missing sheet Newsletter Info" := rfl

/-- C5 (amended): loading succeeds exactly when the file is readable and
the three unconditionally-read sheets (Newsletter Info, Editorial Board,
Department Events) are present; each of the four guarded sheets (Vision &
Mission, Program Objectives, Program Outcomes, Contact Info) yields an
empty collection when absent; failure is a single aggregated
`Error loading Excel` value carrying no partial data. -/
theorem loadData_required_and_optional (s : Spreadsheet) :
    ((loadData s).isOk =
      (s.readable && s.newsletterInfo.isSome && s.editorialBoard.isSome &&
        s.departmentEvents.isSome)) ∧
      (∀ r, loadData s = Except.ok r →
        (s.visionMission = none → r.visionMission = []) ∧
          (s.programObjectives = none → r.peo = []) ∧
          (s.programOutcomes = none → r.pso = []) ∧
          (s.contactInfo = none → r.contact = [])) := by
  obtain ⟨rd, ni, eb, vm, po, pout, de, ci⟩ := s
  rcases rd with _ | _
  · exact ⟨rfl, fun r hr => by simp [loadData] at hr⟩
  · rcases ni with _ | infoRows
    · exact ⟨rfl, fun r hr => by simp [loadData] at hr⟩
    · rcases eb with _ | edRows
      · exact ⟨rfl, fun r hr => by simp [loadData] at hr⟩
      · rcases de with _ | evRows
        · exact ⟨rfl, fun r hr => by simp [loadData] at hr⟩
        · refine ⟨rfl, ?_⟩
          intro r hr
          have hr' : r =
              { info := kvDict infoRows
                editorial := edRows.filter (fun x => x.role.isSome)
                visionMission := (vm.getD []).filter (fun x => x.typ.isSome)
                peo := (po.getD []).filter (fun x => x.code.isSome)
                pso := (pout.getD []).filter (fun x => x.code.isSome)
                events := evRows.filter (fun x => x.title.isSome)
                contact := kvDict (ci.getD []) } := by
            have : loadData
                { readable := true, newsletterInfo := some infoRows,
                  editorialBoard := some edRows, visionMission := vm,
                  programObjectives := po, programOutcomes := pout,
                  departmentEvents := some evRows, contactInfo := ci } =
              Except.ok
                { info := kvDict infoRows
                  editorial := edRows.filter (fun x => x.role.isSome)
                  visionMission := (vm.getD []).filter (fun x => x.typ.isSome)
                  peo := (po.getD []).filter (fun x => x.code.isSome)
                  pso := (pout.getD []).filter (fun x => x.code.isSome)
                  events := evRows.filter (fun x => x.title.isSome)
                  contact := kvDict (ci.getD []) } := rfl
            rw [this] at hr
            exact (Except.ok.inj hr).symm
          subst hr'
          refine ⟨?_, ?_, ?_, ?_⟩
          · intro hvm
            have hvm' : vm = none := hvm
            rw [hvm']
            rfl
          · intro hpo
            have hpo' : po = none := hpo
            rw [hpo']
            rfl
          · intro hpout
            have hpout' : pout = none := hpout
            rw [hpout']
            rfl
          · intro hci
            have hci' : ci = none := hci
            rw [hci']
            rfl

/-- Witness for `loadData_required_and_optional`: required sheets present,
all four optional sheets absent — loading succeeds and each optional table
is empty. -/
theorem loadData_required_and_optional_witness :
    (loadData
        { readable := true, newsletterInfo := some [],
          editorialBoard := some [], visionMission := none,
          programObjectives := none, programOutcomes := none,
          departmentEvents := some [], contactInfo := none }).isOk = true ∧
      (({ info := [], editorial := [], visionMission := [], peo := [], pso := [],
           events := [], contact := [] } : LoadedData).visionMission = [] ∧
        ({ info := [], editorial := [], visionMission := [], peo := [], pso := [],
            events := [], contact := [] } : LoadedData).contact = []) := by
  have h := loadData_required_and_optional
    { readable := true, newsletterInfo := some [], editorialBoard := some [],
      visionMission := none, programObjectives := none, programOutcomes := none,
      departmentEvents := some [], contactInfo := none }
  refine ⟨h.1.trans (by decide), ?_, ?_⟩
  · exact (h.2
      { info := [], editorial := [], visionMission := [], peo := [],
        pso := [], events := [], contact := [] } rfl).1 rfl
  · exact (h.2
      { info := [], editorial := [], visionMission := [], peo := [],
        pso := [], events := [], contact := [] } rfl).2.2.2 rfl

/-! ## Image resolver lemmas (C7) -/

lemma lookupStr_append {β : Type} :
    ∀ l l' : List (String × β), ∀ k,
      lookupStr (l ++ l') k = (lookupStr l k).or (lookupStr l' k) := by
  intro l
  induction l with
  | nil => intro l' k; rfl
  | cons hd rest ih =>
    intro l' k
    obtain ⟨a, b⟩ := hd
    show (if a = k then some b else lookupStr (rest ++ l') k) = _
    by_cases h : a = k
    · rw [if_pos h]
      show _ = (if a = k then some b else lookupStr rest k).or _
      rw [if_pos h]
      rfl
    · rw [if_neg h, ih l' k]
      show _ = (if a = k then some b else lookupStr rest k).or _
      rw [if_neg h]

lemma or_isSome (a b : Option String) : (a.or b).isSome = (a.isSome || b.isSome) := by
  cases a <;> cases b <;> rfl

lemma header_fold_some (fs : List String) (k sp : String) :
    ∀ hk : List (String × String), ∀ acc,
      ((lookupStr acc k).isSome = true ∨ ((k, sp) ∈ hk ∧ sp ∈ fs)) →
      (lookupStr
        (hk.foldl (fun acc kp => if kp.2 ∈ fs then acc ++ [(kp.1, kp.2)] else acc) acc)
        k).isSome = true := by
  intro hk
  induction hk with
  | nil =>
    intro acc h
    rcases h with h | ⟨h, _⟩
    · exact h
    · simp at h
  | cons hd rest ih =>
    intro acc h
    obtain ⟨k1, p1⟩ := hd
    show (lookupStr (rest.foldl _ (if p1 ∈ fs then acc ++ [(k1, p1)] else acc)) k).isSome = true
    rcases h with h | ⟨hmem, hfs⟩
    · refine ih _ (Or.inl ?_)
      split
      · rw [lookupStr_append, or_isSome, h]
        rfl
      · exact h
    · rcases List.mem_cons.mp hmem with heq | hmem'
      · obtain ⟨hk1, hp1⟩ := Prod.ext_iff.mp heq
        dsimp only at hk1 hp1
        subst hk1
        subst hp1
        refine ih _ (Or.inl ?_)
        rw [if_pos hfs, lookupStr_append, or_isSome]
        have : (lookupStr [(k, sp)] k).isSome = true := by
          show (if k = k then some sp else none).isSome = true
          rw [if_pos rfl]
          rfl
        rw [this, Bool.or_true]
      · exact ih _ (Or.inr ⟨hmem', hfs⟩)

lemma embed_fold_none (fs : List String) (ip : List (String × String)) (k : String)
    (hip : (lookupStr ip k).isSome = true) :
    ∀ cp : List (String × String), ∀ acc : List (String × String),
      lookupStr acc k = none →
      lookupStr
        (cp.foldl
          (fun acc kp =>
            if (lookupStr ip kp.1).isSome then acc
            else if kp.2 ∈ fs then
              match encodeImage fs kp.2 with
              | some enc => acc ++ [(kp.1, enc)]
              | none => acc
            else acc) acc) k = none := by
  intro cp
  induction cp with
  | nil => intro acc h; exact h
  | cons hd rest ih =>
    intro acc h
    obtain ⟨k2, p2⟩ := hd
    refine ih _ ?_
    dsimp only
    by_cases hk2 : k2 = k
    · subst hk2
      rw [if_pos (by exact hip)]
      exact h
    · split
      · exact h
      · split
        · split
          · rename_i enc henc
            rw [lookupStr_append, h]
            have h2 : lookupStr [(k2, enc)] k = none := by
              show (if k2 = k then some enc else lookupStr [] k) = none
              rw [if_neg hk2]
              rfl
            rw [h2]
            rfl
          · exact h
        · exact h

/-! ## Claim theorems for the image resolver (C7) -/

/-- C7 counterexample: when the static header file is absent but the
caller-supplied mapping binds the same header key to an existing file, the
resolver *does* produce an inline base64 payload for that header key. -/
theorem header_key_inlined_when_static_missing :
    lookupStr (convertImages ["event1.png"] [("college_logo", "event1.png")]).1
        "college_logo" = some ("b64_" ++ "event1.png") ∧
      ("college_logo", "static/images/college_logo.png") ∈ headerKeys :=
  ⟨rfl, by decide⟩

/-- C7 (amended): when a header key's static file exists, the key resolves
to a path reference and never to an inline payload (the caller-supplied
mapping is skipped for it); a header key can be inlined only when its
static file is missing. -/
theorem header_path_wins (fs : List String) (cp : List (String × String))
    (k sp : String) (hk : (k, sp) ∈ headerKeys) (hfs : sp ∈ fs) :
    (lookupStr (convertImages fs cp).2 k).isSome = true ∧
      lookupStr (convertImages fs cp).1 k = none := by
  have hpath : (lookupStr (convertImages fs cp).2 k).isSome = true := by
    show (lookupStr
      (headerKeys.foldl
        (fun acc kp => if kp.2 ∈ fs then acc ++ [(kp.1, kp.2)] else acc) []) k).isSome = true
    exact header_fold_some fs k sp headerKeys [] (Or.inr ⟨hk, hfs⟩)
  refine ⟨hpath, ?_⟩
  exact embed_fold_none fs _ k hpath cp [] rfl

/-- Witness for `header_path_wins` at a concrete file system. -/
theorem header_path_wins_witness :
    (lookupStr (convertImages ["static/images/college_logo.png", "event.png"]
        [("college_logo", "event.png")]).2 "college_logo").isSome = true ∧
      lookupStr (convertImages ["static/images/college_logo.png", "event.png"]
        [("college_logo", "event.png")]).1 "college_logo" = none :=
  header_path_wins ["static/images/college_logo.png", "event.png"]
    [("college_logo", "event.png")] "college_logo" "static/images/college_logo.png"
    (by decide) (by decide)

/-! ## PDF editor lemmas and claim theorems (C8, C9, C10) -/

lemma pyIndex_none_of_ge {len : Nat} {n : Int} (h : (len : Int) ≤ n) :
    pyIndex len n = none := by
  simp only [pyIndex]
  rw [if_neg (show ¬n < 0 by omega)]
  rw [if_neg (by rintro ⟨h1, h2⟩; omega)]

lemma pyIndex_neg {len : Nat} {n : Int} (h1 : n < 0) (h2 : 0 ≤ n + len) :
    pyIndex len n = some (n + len).toNat := by
  simp only [pyIndex]
  rw [if_pos h1, if_pos ⟨h2, by omega⟩]

/-- C8: deleting page index 2 of a freshly-opened 5-page document yields a
4-page writer holding the original pages 0, 1, 3, 4 in order. -/
theorem delete_page_middle :
    (delete_page (PDFEditor.init
        [{ base := "p0", over := [] }, { base := "p1", over := [] },
         { base := "p2", over := [] }, { base := "p3", over := [] },
         { base := "p4", over := [] }]) 2).writer =
      [{ base := "p0", over := [] }, { base := "p1", over := [] },
       { base := "p3", over := [] }, { base := "p4", over := [] }] ∧
      (delete_page (PDFEditor.init
        [{ base := "p0", over := [] }, { base := "p1", over := [] },
         { base := "p2", over := [] }, { base := "p3", over := [] },
         { base := "p4", over := [] }]) 2).writer.length = 4 := by
  exact ⟨by decide, by decide⟩

/-- C9 counterexample: `delete_page` never raises — with a page index past
the end it silently copies every page into the writer instead of failing
with an index error as the claim states. -/
theorem delete_page_out_of_range_copies :
    delete_page (PDFEditor.init
        [{ base := "a", over := [] }, { base := "b", over := [] }]) 5 =
      { reader := [{ base := "a", over := [] }, { base := "b", over := [] }],
        writer := [{ base := "a", over := [] }, { base := "b", over := [] }],
        numPages := 2 } := by decide

/-- C9 (amended): every operation that indexes `reader.pages`
(add_text, add_image, add_rectangle, add_line, rotate_page, extract_text)
fails with an index error when the page index is at least the page count;
`delete_page`, however, accepts any such index and silently appends *all*
pages to the writer. -/
theorem out_of_range_page_ops (e : PDFEditor) (n : Int) (t fn col fill : String)
    (x y w h sw : Int) (fz : Nat) (ang : Int)
    (h1 : (e.reader.length : Int) ≤ n) (h2 : (e.numPages : Int) ≤ n) :
    add_text e n t x y fz col fn = Except.error "IndexError: sequence index out of range" ∧
      add_image e n t x y w h = Except.error "IndexError: sequence index out of range" ∧
      add_rectangle e n x y w h col fill sw =
        Except.error "IndexError: sequence index out of range" ∧
      add_line e n x y w h col sw = Except.error "IndexError: sequence index out of range" ∧
      rotate_page e n ang = Except.error "IndexError: sequence index out of range" ∧
      extract_text e n = Except.error "IndexError: sequence index out of range" ∧
      delete_page e n =
        { e with writer := e.writer ++
            (List.range e.numPages).map (fun i => e.reader.getD i blankPage) } := by
  have hpi : pyIndex e.reader.length n = none := pyIndex_none_of_ge h1
  refine ⟨?_, ?_, ?_, ?_, ?_, ?_, ?_⟩
  · show addOverlay e n _ = _
    unfold addOverlay
    rw [hpi]
  · show addOverlay e n _ = _
    unfold addOverlay
    rw [hpi]
  · show addOverlay e n _ = _
    unfold addOverlay
    rw [hpi]
  · show addOverlay e n _ = _
    unfold addOverlay
    rw [hpi]
  · unfold rotate_page
    rw [hpi]
  · unfold extract_text
    rw [hpi]
  · unfold delete_page
    have hfilter : (List.range e.numPages).filter (fun (i : Nat) => decide ((i : Int) ≠ n)) =
        List.range e.numPages := by
      refine List.filter_eq_self.mpr ?_
      intro a ha
      have := List.mem_range.mp ha
      simp only [decide_eq_true_eq]
      omega
    rw [hfilter]

/-- Witness for `out_of_range_page_ops` on a 2-page document and index 5. -/
theorem out_of_range_page_ops_witness :
    extract_text (PDFEditor.init
        [{ base := "a", over := [] }, { base := "b", over := [] }]) 5 =
      Except.error "IndexError: sequence index out of range" ∧
      delete_page (PDFEditor.init
        [{ base := "a", over := [] }, { base := "b", over := [] }]) 5 =
      { PDFEditor.init
          [{ base := "a", over := [] }, { base := "b", over := [] }] with
        writer := (PDFEditor.init
          [{ base := "a", over := [] }, { base := "b", over := [] }]).writer ++
          (List.range (PDFEditor.init
            [{ base := "a", over := [] }, { base := "b", over := [] }]).numPages).map
            (fun i => (PDFEditor.init
              [{ base := "a", over := [] }, { base := "b", over := [] }]).reader.getD
                i blankPage) } := by
  have h := out_of_range_page_ops (PDFEditor.init
      [{ base := "a", over := [] }, { base := "b", over := [] }]) 5
    "txt" "Helvetica" "#000000" "#ffffff" 0 0 10 10 1 7 90 (by decide) (by decide)
  exact ⟨h.2.2.2.2.2.1, h.2.2.2.2.2.2⟩

/-- C10: the page-indexing operations accept a negative index `n` with
`|n| ≤ page count` without error (PyPDF2's `_VirtualList.__getitem__`
implements standard Python sequence indexing), addressing the page at
offset `n + page count` from the start, i.e. counting from the end of the
document. -/
theorem negative_index_page_ops (e : PDFEditor) (n : Int) (t fn col : String)
    (x y : Int) (fz : Nat)
    (h1 : n < 0) (h2 : 0 ≤ n + (e.reader.length : Int)) :
    extract_text e n =
      Except.ok (e.reader.getD (n + e.reader.length).toNat blankPage) ∧
      add_text e n t x y fz col fn =
        Except.ok
          { e with
            reader := e.reader.set (n + e.reader.length).toNat
              { e.reader.getD (n + e.reader.length).toNat blankPage with
                over := (e.reader.getD (n + e.reader.length).toNat blankPage).over ++
                  [OvElem.otext t x y fz col fn] }
            writer := e.writer ++
              [{ e.reader.getD (n + e.reader.length).toNat blankPage with
                 over := (e.reader.getD (n + e.reader.length).toNat blankPage).over ++
                   [OvElem.otext t x y fz col fn] }] } ∧
      (rotate_page e n 90).isOk = true := by
  have hpi : pyIndex e.reader.length n = some (n + e.reader.length).toNat :=
    pyIndex_neg h1 h2
  refine ⟨?_, ?_, ?_⟩
  · unfold extract_text
    rw [hpi]
  · show addOverlay e n _ = _
    unfold addOverlay
    rw [hpi]
  · unfold rotate_page
    rw [hpi]
    dsimp only
    rw [if_neg (by decide)]
    rfl

/-- Witness for `negative_index_page_ops`: index `-1` on a 2-page document
addresses the last page. -/
theorem negative_index_page_ops_witness :
    extract_text (PDFEditor.init
        [{ base := "a", over := [] }, { base := "b", over := [] }]) (-1) =
      Except.ok ((PDFEditor.init
        [{ base := "a", over := [] }, { base := "b", over := [] }]).reader.getD
          ((-1) + ((PDFEditor.init
            [{ base := "a", over := [] }, { base := "b", over := [] }]).reader.length : Int)).toNat
          blankPage) ∧
      extract_text (PDFEditor.init
        [{ base := "a", over := [] }, { base := "b", over := [] }]) (-1) =
      Except.ok { base := "b", over := [] } := by
  have h := negative_index_page_ops (PDFEditor.init
      [{ base := "a", over := [] }, { base := "b", over := [] }]) (-1)
    "txt" "Helvetica" "#000000" 0 0 12 (by decide) (by decide)
  exact ⟨h.1, h.1.trans (by rfl)⟩
